import Mathlib

/-!
# Macro VM and transport codecs of the Leonardo controller emulator

A shallow embedding of the C/C++ sources

* `lib/c/varint.h`, `leo_0f0d_0092/varint.h` (varint codec),
* `leonardo_for_nintendo_switch/cobsr.h` (COBS/R framing codec),
* `leo_0f0d_0092/hid_report_executor.h` (the macro interpreter `hidVM`),

followed by theorems about them.

Conventions of the embedding.

* A byte (`uint8_t`) is a `Nat` below 256; a `uint32_t` is a `Nat` below `2^32`.
  Arithmetic that can wrap carries an explicit `%`.
* An array reached through a pointer is a `List Nat`.  Reading or writing an
  index outside the list is undefined behaviour in C and is modelled as a
  fault: the operation returns `none`.
* Loops that are not structurally recursive take a fuel argument; running out
  of fuel is `none` as well, and the theorems show that a result is produced.
-/

/-! ## Memory primitives -/

/-- Read `m[i]`; a read outside the array is a fault. -/
def rd (m : List Nat) (i : Nat) : Option Nat := m[i]?

/-- Write `m[i] = v`; a write outside the array is a fault. -/
def wr (m : List Nat) (i v : Nat) : Option (List Nat) :=
  if i < m.length then some (m.set i v) else none

/-! ## Varint codec (`lib/c/varint.h`, `leo_0f0d_0092/varint.h`) -/

/-- The `while (value >= 0x80)` loop of `encode_varint_u32`; the state is
`(value, buf, i)`.  Each round shifts `value` right by 7, so `value` itself is
enough fuel. -/
def encode_varint_loop : Nat → Nat → List Nat → Nat → Option (Nat × List Nat × Nat)
  | 0, value, buf, i => if value ≥ 0x80 then none else some (value, buf, i)
  | fuel + 1, value, buf, i =>
    if value ≥ 0x80 then
      (wr buf i (((value &&& 0x7f) ||| 0x80) % 256)).bind fun buf1 =>
        encode_varint_loop fuel (value >>> 7) buf1 (i + 1)
    else some (value, buf, i)

/-- The statements after the loop: `buf[i++] = (uint8_t)(value & 0x7F); return i;`. -/
def encode_varint_last (s : Nat × List Nat × Nat) : Option (Nat × List Nat) :=
  (wr s.2.1 s.2.2 ((s.1 &&& 0x7F) % 256)).bind fun buf2 => some (s.2.2 + 1, buf2)

/-- Source: `size_t encode_varint_u32(uint32_t value, uint8_t *buf)` (the same text in
both varint headers): returns the number of bytes written and the buffer. -/
def encode_varint_u32 (value : Nat) (buf : List Nat) : Option (Nat × List Nat) :=
  (encode_varint_loop value value buf 0).bind encode_varint_last

namespace lib_c

/-- The `while (offset < size && shift < 32)` loop of the offset-based
`decode_varint_u32`; returns `(result, offset)`. -/
def decode_varint_loop (data : List Nat) (size : Nat) :
    Nat → Nat → Nat → Nat → Option (Nat × Nat)
  | 0, offset, shift, result =>
    if offset < size ∧ shift < 32 then none else some (result, offset)
  | fuel + 1, offset, shift, result =>
    if offset < size ∧ shift < 32 then
      (rd data offset).bind fun byte =>
        let result1 := result ||| (((byte &&& 0x7F) <<< shift) % 2 ^ 32)
        if byte &&& 0x80 = 0 then some (result1, offset + 1)
        else decode_varint_loop data size fuel (offset + 1) (shift + 7) result1
    else some (result, offset)

/-- Source: `uint32_t decode_varint_u32(const uint8_t *data, size_t size, size_t &offset)`
of `lib/c/varint.h`: returns the result and the updated offset. -/
def decode_varint_u32 (data : List Nat) (size offset : Nat) : Option (Nat × Nat) :=
  decode_varint_loop data size (size - offset) offset 0 0

end lib_c

namespace leo

/-- The `while (pos < end && shift < 32)` loop of the pointer-based
`decode_varint_u32`; pointers are indices into the memory `mem`; returns
`(pos, result)`. -/
def decode_varint_loop (mem : List Nat) (endp : Nat) :
    Nat → Nat → Nat → Nat → Option (Nat × Nat)
  | 0, pos, shift, result =>
    if pos < endp ∧ shift < 32 then none else some (pos, result)
  | fuel + 1, pos, shift, result =>
    if pos < endp ∧ shift < 32 then
      (rd mem pos).bind fun byte =>
        let result1 := result ||| (((byte &&& 0x7F) <<< shift) % 2 ^ 32)
        if byte &&& 0x80 = 0 then some (pos + 1, result1)
        else decode_varint_loop mem endp fuel (pos + 1) (shift + 7) result1
    else some (pos, result)

/-- Source: `const uint8_t *decode_varint_u32(const uint8_t *data, const uint8_t *end,
uint32_t &result)` of `leo_0f0d_0092/varint.h`: returns the end pointer and the
result. -/
def decode_varint_u32 (mem : List Nat) (data endp : Nat) : Option (Nat × Nat) :=
  decode_varint_loop mem endp (endp - data) data 0 0

end leo

/-! ## COBS/R framing codec (`leonardo_for_nintendo_switch/cobsr.h`) -/

/-- The call `memcpy(dst + d, src + s, n)` between two distinct arrays, byte by byte. -/
def memcpy (dst : List Nat) (d : Nat) (src : List Nat) (s : Nat) : Nat → Option (List Nat)
  | 0 => some dst
  | n + 1 =>
    (rd src s).bind fun b => (wr dst d b).bind fun dst1 => memcpy dst1 (d + 1) src (s + 1) n

namespace cobsr

/-- Source: `inline int max_encoded_size(size_t size)` of `leo_0f0d_0092/cobs.h`
(the arithmetic is exact as long as the value fits the result type). -/
def max_encoded_size (size : Nat) : Nat := size + size / 254 + 1

end cobsr

namespace leonardo

/-- The local variables of `encode_cobsr` together with the output array. -/
structure EncState where
  out : List Nat
  write_index : Nat
  code_index : Nat
  code : Nat
deriving DecidableEq, Repr

/-- The statements under the label `close_block`. -/
def close_block (s : EncState) : Option EncState :=
  (wr s.out s.code_index s.code).bind fun out1 =>
    some { out := out1, write_index := s.write_index + 1, code_index := s.write_index, code := 1 }

/-- One round of the `for` loop of `encode_cobsr` on the input byte `byte`. -/
def encode_step (s : EncState) (byte : Nat) : Option EncState :=
  if byte ≠ 0 then
    (wr s.out s.write_index byte).bind fun out1 =>
      let s1 : EncState :=
        { out := out1, write_index := s.write_index + 1, code_index := s.code_index,
          code := (s.code + 1) % 256 }
      if s1.code = 0xFF then close_block s1 else some s1
  else close_block s

/-- The `for (size_t i = 0; i < in_size; i++)` loop over the input bytes. -/
def encode_loop : List Nat → EncState → Option EncState
  | [], s => some s
  | byte :: rest, s => (encode_step s byte).bind (encode_loop rest)

/-- The COBS/R optimization after the loop, and the return value. -/
def encode_finish (s : EncState) : Option (Nat × List Nat) :=
  (rd s.out (s.write_index - 1)).bind fun last =>
    if last ≥ s.code then
      (wr s.out s.code_index last).bind fun out1 => some (s.write_index - 1, out1)
    else
      (wr s.out s.code_index s.code).bind fun out1 => some (s.write_index, out1)

/-- Source: `size_t encode_cobsr(const uint8_t *in, size_t in_size, uint8_t *out)`:
`inp` holds the `in_size` input bytes, `out` is the output array with whatever
it contained before the call; returns the frame length and the output array. -/
def encode_cobsr (inp : List Nat) (out : List Nat) : Option (Nat × List Nat) :=
  if inp.length = 0 then
    (wr out 0 0x01).bind fun out1 => some (1, out1)
  else
    (encode_loop inp { out := out, write_index := 1, code_index := 0, code := 1 }).bind
      encode_finish

/-- The `while (true)` loop of `decode_cobsr`; `in_pos` and `out_pos` are indices
into `inp` and `out`.  Every round advances `in_pos`, so `in_size` rounds of fuel
are enough.  A code byte 0 makes the `memcpy` length `(size_t)(code - 1)` equal to
`SIZE_MAX`, which overruns every array: a fault. -/
def decode_loop (inp : List Nat) (in_size : Nat) :
    Nat → Nat → Nat → List Nat → Option (Nat × List Nat)
  | 0, _, _, _ => none
  | fuel + 1, in_pos, out_pos, out =>
    (rd inp in_pos).bind fun code =>
      let remaining := in_size - in_pos
      if code > remaining then
        (memcpy out out_pos inp (in_pos + 1) (remaining - 1)).bind fun out1 =>
          (wr out1 (out_pos + (remaining - 1)) code).bind fun out2 =>
            some (out_pos + (remaining - 1) + 1, out2)
      else if code = 0 then none
      else
        (memcpy out out_pos inp (in_pos + 1) (code - 1)).bind fun out1 =>
          if in_pos + code = in_size then some (out_pos + (code - 1), out1)
          else if code ≠ 0xFF then
            (wr out1 (out_pos + (code - 1)) 0x00).bind fun out2 =>
              decode_loop inp in_size fuel (in_pos + code) (out_pos + (code - 1) + 1) out2
          else decode_loop inp in_size fuel (in_pos + code) (out_pos + (code - 1)) out1

/-- Source: `size_t decode_cobsr(const uint8_t *in, size_t in_size, uint8_t *out)`: returns
the decoded length and the output array. -/
def decode_cobsr (inp : List Nat) (in_size : Nat) (out : List Nat) : Option (Nat × List Nat) :=
  if in_size = 0 then some (0, out)
  else decode_loop inp in_size in_size 0 0 out

end leonardo

/-! ## The interpreter `hidVM` (`leo_0f0d_0092/hid_report_executor.h`) -/

/-- Source: `#define BUFFER_SIZE 1024`. -/
def BUFFER_SIZE : Nat := 1024

/-- Source: `#define MAX_LOOP_DEPTH 5`. -/
def MAX_LOOP_DEPTH : Nat := 5

/-- Number of values of `size_t` on the target of the sketch, the ATmega32U4 of
the Arduino Leonardo (avr-gcc: `size_t` and `int` have 16 bits). -/
def SIZE_MOD : Nat := 2 ^ 16

/-- Source: `uint8_t popcnt(uint8_t bits)`. -/
def popcnt (bits : Nat) : Nat :=
  let bits1 := ((bits &&& 0x55) + ((bits >>> 1) &&& 0x55)) % 256
  let bits2 := ((bits1 &&& 0x33) + ((bits1 >>> 2) &&& 0x33)) % 256
  ((bits2 &&& 0x0f) + ((bits2 >>> 4) &&& 0x0f)) % 256

/-- The `for (size_t i = 0; i < size; i++)` loop of `varint_size`; `data` of the
source is `mem + base`.  At most `size` rounds are made. -/
def varint_size_loop (mem : List Nat) (base size : Nat) : Nat → Nat → Option Nat
  | 0, i => if i < size then none else some 0
  | fuel + 1, i =>
    if i < size then
      (rd mem (base + i)).bind fun b =>
        if b &&& 0x80 = 0 then some (i + 1) else varint_size_loop mem base size fuel (i + 1)
    else some 0

/-- Source: `size_t varint_size(const uint8_t *data, size_t size)` with `data = mem + base`. -/
def varint_size (mem : List Nat) (base size : Nat) : Option Nat :=
  varint_size_loop mem base size size 0

/-- Source: `size_t instruction_size(uint8_t *buf, size_t buf_size)`; the `size_t`
subtraction `buf_size - len` and the sums wrap modulo `SIZE_MOD`. -/
def instruction_size (buf : List Nat) (buf_size : Nat) : Option Nat :=
  if buf_size = 0 then some 0
  else
    (rd buf 0).bind fun opcode =>
      if opcode &&& 0x80 ≠ 0 then
        let len := popcnt opcode
        (varint_size buf len ((buf_size + SIZE_MOD - len) % SIZE_MOD)).bind fun vs =>
          some ((len + vs) % SIZE_MOD)
      else if opcode = 0x0e then
        (varint_size buf 1 (buf_size - 1)).bind fun vs => some ((1 + vs) % SIZE_MOD)
      else if opcode = 0x0f then some 1
      else if 0x10 ≤ opcode ∧ opcode ≤ 0x7f then
        (varint_size buf 1 (buf_size - 1)).bind fun vs => some ((1 + vs) % SIZE_MOD)
      else some 0

namespace hidVM

/-- Source: `enum State { IDLE, EXECUTING }`. -/
inductive State where
  | IDLE
  | EXECUTING
deriving DecidableEq, Repr

/-- A `const uint8_t *` held by the interpreter: the null pointer, or `buf + n`. -/
inductive Ptr where
  | null
  | off (n : Nat)
deriving DecidableEq, Repr

/-- Source: `struct Loop { uint32_t count; const uint8_t *start_pos; }`. -/
structure Loop where
  count : Nat
  start_pos : Ptr
deriving DecidableEq, Repr

/-- The seven report bytes `data[0]` .. `data[6]` that `update` fills in: buttons
low, buttons high, hat, LX, LY, RX, RY. -/
structure Report where
  d0 : Nat
  d1 : Nat
  d2 : Nat
  d3 : Nat
  d4 : Nat
  d5 : Nat
  d6 : Nat
deriving DecidableEq, Repr

/-- The global variables of namespace `hidVM`; `end_` is the pointer `end` as an
offset from `buf`. -/
structure VM where
  current_state : State
  buf : List Nat
  end_ : Nat
  pos : Ptr
  hold_time : Nat
  hold_start : Nat
  loop_table : List Loop
  loop_depth : Nat
deriving DecidableEq, Repr

/-- The state after static initialisation: zeroed arrays, `end = buf`, `pos = buf`,
null `start_pos` pointers. -/
def fresh : VM :=
  { current_state := State.IDLE
    buf := List.replicate BUFFER_SIZE 0
    end_ := 0
    pos := Ptr.off 0
    hold_time := 0
    hold_start := 0
    loop_table := List.replicate MAX_LOOP_DEPTH { count := 0, start_pos := Ptr.null }
    loop_depth := 0 }

/-- Source: `void push(uint8_t *data, int size)`; `data` is the array behind the pointer
and `size` the (non-negative) declared size. -/
def push (vm : VM) (data : List Nat) (size : Nat) : Option VM :=
  if vm.current_state ≠ State.IDLE then some vm
  else if vm.end_ + size > BUFFER_SIZE then some vm
  else
    (instruction_size data size).bind fun isz =>
      if isz ≠ size then some vm
      else
        (memcpy vm.buf vm.end_ data 0 size).bind fun buf1 =>
          some { vm with buf := buf1, end_ := vm.end_ + size }

/-- Source: `void clear()`. -/
def clear (vm : VM) : VM :=
  if vm.current_state ≠ State.IDLE then vm else { vm with end_ := 0 }

/-- Source: `void start()`. -/
def start (vm : VM) : VM :=
  if vm.current_state ≠ State.IDLE then vm else { vm with current_state := State.EXECUTING }

/-- Source: `void stop()`. -/
def stop (vm : VM) : VM :=
  if vm.current_state ≠ State.EXECUTING then vm
  else { vm with pos := Ptr.off 0, hold_time := 0, loop_depth := 0, current_state := State.IDLE }

/-- Modelled from the spec: `set_neutral` of `hid_basic_report.h`, which is not among
the sources; the spec gives the all-neutral report as `{0,0,0,0x80,0x80,0x80,0x80}`. -/
def set_neutral (_data : Report) : Report :=
  { d0 := 0x00, d1 := 0x00, d2 := 0x00, d3 := 0x80, d4 := 0x80, d5 := 0x80, d6 := 0x80 }

/-- The test `pos >= end`; the null pointer lies below every object. -/
def pos_ge_end (vm : VM) : Bool :=
  match vm.pos with
  | Ptr.null => false
  | Ptr.off n => decide (n ≥ vm.end_)

/-- The hold check at the top of `update`: `hold_time != 0` and
`millis() - hold_start < hold_time` in `uint32_t` arithmetic. -/
def holding (now : Nat) (vm : VM) : Bool :=
  if vm.hold_time = 0 then false
  else decide ((now + 2 ^ 32 - vm.hold_start) % 2 ^ 32 < vm.hold_time)

/-- One line of the complex-report branch:
`if (opcode & mask) { data[i] = *pos++; } else { data[i] = dflt; }`. -/
def literal (buf : List Nat) (opcode mask dflt : Nat) (pos : Nat) : Option (Nat × Nat) :=
  if opcode &&& mask ≠ 0 then (rd buf pos).bind fun b => some (b, pos + 1)
  else some (dflt, pos)

/-- The complex-report branch: the seven fields in order, each read from the
program when its bit of `opcode` is set. -/
def complex_report (buf : List Nat) (opcode : Nat) (pos : Nat) : Option (Report × Nat) :=
  (literal buf opcode 0x01 0x00 pos).bind fun f0 =>
  (literal buf opcode 0x02 0x00 f0.2).bind fun f1 =>
  (literal buf opcode 0x04 0x00 f1.2).bind fun f2 =>
  (literal buf opcode 0x08 0x80 f2.2).bind fun f3 =>
  (literal buf opcode 0x10 0x80 f3.2).bind fun f4 =>
  (literal buf opcode 0x20 0x80 f4.2).bind fun f5 =>
  (literal buf opcode 0x40 0x80 f5.2).bind fun f6 =>
    some ({ d0 := f0.1, d1 := f1.1, d2 := f2.1, d3 := f3.1, d4 := f4.1, d5 := f5.1,
            d6 := f6.1 }, f6.2)

/-- The tail of `update` after a report has been filled in:
`pos = decode_varint_u32(pos, end, hold_time); hold_start = millis(); return true;`. -/
def arm_hold (now : Nat) (vm : VM) (pos : Nat) (data : Report) : Option (VM × Report × Bool) :=
  (leo.decode_varint_u32 vm.buf pos vm.end_).bind fun r =>
    some ({ vm with pos := Ptr.off r.1, hold_time := r.2, hold_start := now }, data, true)

/-- The local object `new_loop` of the LoopStart case after its three assignments;
it is a copy of the table entry and goes out of scope at `return false`. -/
def loop_start_local (entry : Loop) (count : Nat) (pos : Ptr) : Loop :=
  let l1 : Loop := { entry with count := count }
  let l2 : Loop := if l1.count = 0 then { l1 with count := 1 } else l1
  { l2 with start_pos := pos }

/-- Source: `bool update(uint8_t *data)`, at clock value `now = millis()`.  `set_basic op`
stands for the preset function that the `switch` calls for the opcode `op` in
`0x11 .. 0x36` (`set_btn_y` .. `set_rs_up_left` of `hid_basic_report.h`, which
is not among the sources).  Returns the new state, the contents of `data` and the
returned flag.  Dereferencing the null pointer, reading `buf` outside its
`BUFFER_SIZE` bytes and indexing `loop_table` outside its entries are faults. -/
def update (set_basic : Nat → Report → Report) (now : Nat) (vm : VM) (data : Report) :
    Option (VM × Report × Bool) :=
  if vm.current_state = State.IDLE then some (vm, data, false)
  else if holding now vm then some (vm, data, false)
  else
    -- `hold_time` is 0 here: either it was, or the hold has just elapsed
    let vm0 : VM := { vm with hold_time := 0 }
    if pos_ge_end vm0 then some ({ vm0 with current_state := State.IDLE }, data, false)
    else
      match vm0.pos with
      | Ptr.null => none
      | Ptr.off p =>
        (rd vm0.buf p).bind fun opcode =>
          let vm1 : VM := { vm0 with pos := Ptr.off (p + 1) }
          if opcode &&& 0x80 = 0 then
            if opcode = 0x0e then
              if vm1.loop_depth = MAX_LOOP_DEPTH then some (vm1, data, false)
              else
                (vm1.loop_table[vm1.loop_depth]?).bind fun entry =>
                  (leo.decode_varint_u32 vm1.buf (p + 1) vm1.end_).bind fun r =>
                    let _new_loop := loop_start_local entry r.2 (Ptr.off r.1)
                    some ({ vm1 with loop_depth := (vm1.loop_depth + 1) % 256,
                                     pos := Ptr.off r.1 }, data, false)
            else if opcode = 0x0f then
              if vm1.loop_depth = 0 then none
              else
                (vm1.loop_table[vm1.loop_depth - 1]?).bind fun crnt_loop =>
                  if (crnt_loop.count + 2 ^ 32 - 1) % 2 ^ 32 = 0 then
                    some ({ vm1 with loop_depth := vm1.loop_depth - 1 }, data, false)
                  else
                    some ({ vm1 with pos := crnt_loop.start_pos }, data, false)
            else if opcode = 0x10 then arm_hold now vm1 (p + 1) (set_neutral data)
            else if 0x11 ≤ opcode ∧ opcode ≤ 0x36 then
              arm_hold now vm1 (p + 1) (set_basic opcode data)
            else some (vm1, data, false)
          else
            (complex_report vm1.buf opcode (p + 1)).bind fun c =>
              arm_hold now vm1 c.2 c.1

end hidVM

/-! ## Vocabulary of the statements -/

/-- The bytes of the varint of `v`, computed as the encoder's loop computes them
(with the same fuel); used to describe the encoder's output. -/
def varintBytes : Nat → Nat → List Nat
  | 0, v => [v]
  | fuel + 1, v => if v ≥ 128 then (v % 128 + 128) :: varintBytes fuel (v / 128) else [v]

/-- A terminated varint: byte values, every one but the last with the continuation
bit 0x80 set, the last one with it clear. -/
def varint_terminated : List Nat → Bool
  | [] => false
  | [b] => decide (b < 0x80)
  | b :: c :: rest => decide (0x80 ≤ b) && decide (b < 256) && varint_terminated (c :: rest)

/-- A complete varint of a 32-bit value in the sense of spec §4.1: terminated within
the five 7-bit groups that `decode_varint_u32` reads. -/
def varint_complete (v : List Nat) : Bool := varint_terminated v && decide (v.length ≤ 5)

/-- The integer a varint denotes: its 7-bit groups, low-order group first. -/
def varint_value : List Nat → Nat
  | [] => 0
  | b :: rest => b % 128 + 128 * varint_value rest

/-- Number of set bits of `m` among the bits `0 .. i-1`. -/
def bits_below (m i : Nat) : Nat := ((List.range i).filter fun k => m.testBit k).length

/-- Number of set bits of a byte. -/
def popcount (m : Nat) : Nat := bits_below m 8

namespace hidVM

/-- The report byte `data[i]`. -/
def Report.byte (r : Report) (i : Nat) : Nat :=
  match i with
  | 0 => r.d0
  | 1 => r.d1
  | 2 => r.d2
  | 3 => r.d3
  | 4 => r.d4
  | 5 => r.d5
  | _ => r.d6

/-- Neutral default of report field `i`: 0x00 for buttons and hat, 0x80 for the axes. -/
def field_default (i : Nat) : Nat := if i < 3 then 0x00 else 0x80

/-- One well-formed instruction of the bytecode format of spec §3, as a byte list. -/
def IsInstruction (c : List Nat) : Prop :=
  c = [0x0f] ∨
  (∃ v, varint_terminated v = true ∧ c = 0x0e :: v) ∨
  (∃ op v, 0x10 ≤ op ∧ op ≤ 0x36 ∧ varint_terminated v = true ∧ c = op :: v) ∨
  (∃ m lits v, 0x80 ≤ m ∧ m < 256 ∧ lits.length = popcount (m &&& 0x7F) ∧
    varint_terminated v = true ∧ c = m :: (lits ++ v))

/-- The report the complex-report branch is specified to build from the opcode `m`
and the literal bytes `lits`: field `i` is the `k`-th literal byte when bit `i` of `m`
is set, `k` being the number of set bits of `m` below bit `i`, and the neutral default
otherwise. -/
def complex_field (m : Nat) (lits : List Nat) (i : Nat) : Nat :=
  if m.testBit i then lits.getD (bits_below m i) 0 else field_default i

/-- The state of a VM into which the instructions making up `bytes` have been pushed
since static initialisation (or since `clear`): the program at the start of `buf`,
zeroes behind it. -/
def loaded (bytes : List Nat) : VM :=
  { fresh with
    buf := bytes ++ List.replicate (BUFFER_SIZE - bytes.length) 0
    end_ := bytes.length }

/-- Calls of `push`, one per instruction of a list, in order. -/
def push_all : VM → List (List Nat) → Option VM
  | vm, [] => some vm
  | vm, c :: rest => (push vm c c.length).bind fun vm1 => push_all vm1 rest

/-- Consecutive calls of `update`, one per clock value of the list; returns the final
state, the final contents of `data` and the flags returned, in order. -/
def ticks (set_basic : Nat → Report → Report) :
    List Nat → VM → Report → Option (VM × Report × List Bool)
  | [], vm, data => some (vm, data, [])
  | now :: rest, vm, data =>
    (update set_basic now vm data).bind fun r =>
      (ticks set_basic rest r.1 r.2.1).bind fun t => some (t.1, t.2.1, r.2.2 :: t.2.2)

end hidVM

namespace leonardo

/-- Invariant of the encoder loop after `i` input bytes: `L` is the capacity of the
output array and `out0` its contents before the call. -/
structure EncInv (L : Nat) (out0 : List Nat) (i : Nat) (s : EncState) : Prop where
  len : s.out.length = L
  code_pos : 1 ≤ s.code
  code_le : s.code ≤ 254
  block : s.code_index + s.code = s.write_index
  growth : ∃ e, s.write_index = 1 + i + e ∧ 254 * e + (s.code - 1) ≤ i
  nonzero : ∀ j, j < s.write_index → j ≠ s.code_index → ∃ v, s.out[j]? = some v ∧ v ≠ 0
  frame : ∀ j, s.write_index ≤ j → s.out[j]? = out0[j]?

end leonardo

/-! ## The other COBS/R encoders (`lib/c/cobsr.h`, `leo_0f0d_0092/cobs.h`) -/

namespace lib_c

/-- Source: `size_t encode_cobsr(uint8_t *input, size_t input_size, uint8_t *output,
size_t output_size)` of `lib/c/cobsr.h`.  After its first `if` the text is the text of
`leonardo_for_nintendo_switch/cobsr.h` (the same loop and the same tail), and
`output_size` is not used again. -/
def encode_cobsr (input output : List Nat) (output_size : Nat) : Option (Nat × List Nat) :=
  if input.length = 0 ∧ output_size ≠ 0 then
    (wr output 0 0x01).bind fun out1 => some (1, out1)
  else
    (leonardo.encode_loop input
      { out := output, write_index := 1, code_index := 0, code := 1 }).bind
      leonardo.encode_finish

/-- The `while (true)` loop of `decode_cobsr` of `lib/c/cobsr.h`; `code_index` and
`write_index` are the local variables, `fuel` bounds the number of rounds (every
round advances `code_index`, so `input_size` rounds are enough).  In the reduced
final block the statement is `output[write_index++] += code;`: the old content of
the output byte is read and the sum is stored as a `uint8_t`.  A code byte 0 makes
the `memcpy` length `code - 1` convert to `SIZE_MAX`, which overruns every array: a
fault. -/
def decode_loop (input : List Nat) (input_size : Nat) :
    Nat → Nat → Nat → List Nat → Option (Nat × List Nat)
  | 0, _, _, _ => none
  | fuel + 1, code_index, write_index, output =>
    (rd input code_index).bind fun code =>
      let remaining_bytes := input_size - code_index
      if code > input_size - code_index then
        (memcpy output write_index input (code_index + 1) (remaining_bytes - 1)).bind fun out1 =>
          (rd out1 (write_index + (remaining_bytes - 1))).bind fun old =>
            (wr out1 (write_index + (remaining_bytes - 1)) ((old + code) % 256)).bind fun out2 =>
              some (write_index + (remaining_bytes - 1) + 1, out2)
      else if code = 0 then none
      else
        (memcpy output write_index input (code_index + 1) (code - 1)).bind fun out1 =>
          if code_index + code = input_size then some (write_index + (code - 1), out1)
          else if code ≠ 0xFF then
            (wr out1 (write_index + (code - 1)) 0x00).bind fun out2 =>
              decode_loop input input_size fuel (code_index + code)
                (write_index + (code - 1) + 1) out2
          else
            decode_loop input input_size fuel (code_index + code) (write_index + (code - 1)) out1

/-- Source: `size_t decode_cobsr(uint8_t *input, size_t input_size, uint8_t *output,
size_t output_size)` of `lib/c/cobsr.h`; `output_size` is not used by the body.
Returns the decoded length and the output array. -/
def decode_cobsr (input : List Nat) (input_size : Nat) (output : List Nat)
    (_output_size : Nat) : Option (Nat × List Nat) :=
  if input_size = 0 then some (0, output)
  else decode_loop input input_size input_size 0 0 output

end lib_c

namespace cobsr

/-- The local variables of `cobsr::encode` together with the destination array. -/
structure EncState where
  dst : List Nat
  code : Nat
  code_idx : Nat
  dst_size : Nat
deriving DecidableEq, Repr

/-- The statements under the label `restart`. -/
def restart (s : EncState) : Option EncState :=
  (wr s.dst s.code_idx s.code).bind fun dst1 =>
    some { dst := dst1, code := 1, code_idx := s.dst_size, dst_size := s.dst_size + 1 }

/-- One round of the `for` loop of `cobsr::encode` on the source byte `b`. -/
def encode_step (s : EncState) (b : Nat) : Option EncState :=
  if b ≠ 0 then
    (wr s.dst s.dst_size b).bind fun dst1 =>
      let s1 : EncState :=
        { dst := dst1, code := (s.code + 1) % 256, code_idx := s.code_idx,
          dst_size := s.dst_size + 1 }
      if s1.code = 255 then restart s1 else some s1
  else restart s

/-- The `for (size_t i = 0; i < src_size; ++i)` loop over the source bytes. -/
def encode_loop : List Nat → EncState → Option EncState
  | [], s => some s
  | b :: rest, s => (encode_step s b).bind (encode_loop rest)

/-- The statements after the loop:
`if (code <= dst[dst_size - 1]) { dst[code_idx] = dst[--dst_size]; } else { dst[code_idx] = code; }
return dst_size;`. -/
def encode_finish (s : EncState) : Option (Nat × List Nat) :=
  (rd s.dst (s.dst_size - 1)).bind fun last =>
    if s.code ≤ last then
      (rd s.dst (s.dst_size - 1)).bind fun v =>
        (wr s.dst s.code_idx v).bind fun dst1 => some (s.dst_size - 1, dst1)
    else
      (wr s.dst s.code_idx s.code).bind fun dst1 => some (s.dst_size, dst1)

/-- Source: `inline size_t encode(const uint8_t* src, size_t src_size, uint8_t* dst)` of
`leo_0f0d_0092/cobs.h`: returns the frame length and the destination array. -/
def encode (src dst : List Nat) : Option (Nat × List Nat) :=
  if src.length = 0 then some (0, dst)
  else
    (encode_loop src { dst := dst, code := 1, code_idx := 0, dst_size := 1 }).bind
      encode_finish

end cobsr

/-! ## Sequences of calls to the interpreter -/

namespace hidVM

/-- One call of the interface of `hidVM`, with its arguments (`update` with the clock
value it reads and the contents of `data` it is given). -/
inductive Call where
  | push (data : List Nat) (size : Nat)
  | clear
  | start
  | stop
  | update (now : Nat) (data : Report)
deriving Repr

/-- The state after one call; `none` when the call faults. -/
def call (set_basic : Nat → Report → Report) (vm : VM) : Call → Option VM
  | Call.push data size => push vm data size
  | Call.clear => some (clear vm)
  | Call.start => some (start vm)
  | Call.stop => some (stop vm)
  | Call.update now data => (update set_basic now vm data).bind fun r => some r.1

/-- The state after a sequence of calls, in order. -/
def run (set_basic : Nat → Report → Report) : VM → List Call → Option VM
  | vm, [] => some vm
  | vm, c :: rest => (call set_basic vm c).bind fun vm1 => run set_basic vm1 rest

/-- The statements of `case 0x0f` (LoopEnd) that follow the copy
`Loop crnt_loop = loop_table[loop_depth - 1];`, as a function of the object copied:
`if (--crnt_loop.count == 0) { loop_depth--; } else { pos = crnt_loop.start_pos; }`,
with `count` a `uint32_t` and `loop_depth` a `uint8_t`. -/
def loop_end_local (vm1 : VM) (crnt_loop : Loop) : VM :=
  if (crnt_loop.count + 2 ^ 32 - 1) % 2 ^ 32 = 0 then
    { vm1 with loop_depth := (vm1.loop_depth + 256 - 1) % 256 }
  else { vm1 with pos := crnt_loop.start_pos }

end hidVM

/-! # Theorems -/

set_option maxRecDepth 100000

/-! ## Byte-level facts -/

theorem and_7f_eq_mod (v : Nat) : v &&& 0x7f = v % 128 := by
  have := Nat.and_pow_two_sub_one_eq_mod v 7
  simpa using this

theorem byte_and_80 : ∀ b, b < 256 → (b &&& 0x80 = 0 ↔ b < 128) := by decide

theorem or_80_of_lt (a : Nat) (h : a < 128) : a ||| 0x80 = a + 128 := by
  have := Nat.mul_add_lt_is_or (i := 7) (b := a) (by simpa using h) 1
  rw [Nat.lor_comm]
  simpa [Nat.add_comm] using this.symm

theorem or_shift_eq_add (r g s : Nat) (hr : r < 2 ^ s) (hg : g * 2 ^ s < 2 ^ 32) :
    r ||| ((g <<< s) % 2 ^ 32) = r + g * 2 ^ s := by
  rw [Nat.shiftLeft_eq, Nat.mod_eq_of_lt hg, Nat.lor_comm, Nat.mul_comm g,
    ← Nat.mul_add_lt_is_or hr g, Nat.add_comm]

theorem wr_eq_some (m : List Nat) (i v : Nat) (h : i < m.length) :
    wr m i v = some (m.set i v) := by
  simp [wr, h]

/-! ## Varint: shape of the encoder's output -/

theorem varintBytes_length_pos (fuel v : Nat) : 1 ≤ (varintBytes fuel v).length := by
  cases fuel <;> simp [varintBytes]
  split <;> simp

theorem varintBytes_length_le (fuel : Nat) : ∀ (v m : Nat), v < 2 ^ (7 * m) → 1 ≤ m →
    (varintBytes fuel v).length ≤ m := by
  induction fuel with
  | zero => intro v m _ hm; simpa [varintBytes] using hm
  | succ f ih =>
    intro v m hv hm
    simp only [varintBytes]
    split
    · rename_i h
      obtain ⟨m', rfl⟩ : ∃ m', m = m' + 1 := ⟨m - 1, by omega⟩
      have hm' : 1 ≤ m' := by
        rcases Nat.eq_zero_or_pos m' with h0 | h0
        · subst h0; simp at hv; omega
        · exact h0
      have : v / 128 < 2 ^ (7 * m') := by
        rw [Nat.div_lt_iff_lt_mul (by norm_num)]
        calc v < 2 ^ (7 * (m' + 1)) := hv
          _ = 2 ^ (7 * m') * 128 := by rw [Nat.mul_add, Nat.pow_add]
      have := ih (v / 128) m' this hm'
      simp only [List.length_cons]
      omega
    · simpa using hm

/-- Shape of the encoder's output: the varint bytes are laid down from index `i`
and nothing else is touched. -/
theorem encode_varint_loop_spec (fuel : Nat) : ∀ (value : Nat) (buf : List Nat) (i : Nat),
    value ≤ fuel → i + (varintBytes fuel value).length ≤ buf.length →
    ∃ buf', (encode_varint_loop fuel value buf i).bind encode_varint_last
        = some (i + (varintBytes fuel value).length, buf') ∧
      buf'.length = buf.length ∧
      (∀ j, j < i → buf'[j]? = buf[j]?) ∧
      (∀ j, i + (varintBytes fuel value).length ≤ j → buf'[j]? = buf[j]?) ∧
      (∀ j, j < (varintBytes fuel value).length →
        buf'[i + j]? = (varintBytes fuel value)[j]?) := by
  induction fuel with
  | zero =>
    intro value buf i hv hlen
    have hv0 : value = 0 := by omega
    subst hv0
    simp only [varintBytes, List.length_singleton] at hlen ⊢
    refine ⟨buf.set i 0, ?_, by simp, ?_, ?_, ?_⟩
    · simp [encode_varint_loop, encode_varint_last, wr_eq_some buf i _ (by omega : i < buf.length)]
    · intro j hj; rw [List.getElem?_set_ne (by omega)]
    · intro j hj; rw [List.getElem?_set_ne (by omega)]
    · intro j hj
      have : j = 0 := by omega
      subst this
      rw [Nat.add_zero, List.getElem?_set_self (by omega)]; rfl
  | succ f ih =>
    intro value buf i hv hlen
    by_cases h : value ≥ 128
    · have hvb : varintBytes (f + 1) value = (value % 128 + 128) :: varintBytes f (value / 128) := by
        simp [varintBytes, h]
      rw [hvb] at hlen ⊢
      simp only [List.length_cons] at hlen ⊢
      have hbyte : ((value &&& 0x7f) ||| 0x80) % 256 = value % 128 + 128 := by
        rw [and_7f_eq_mod, or_80_of_lt _ (Nat.mod_lt _ (by norm_num))]
        omega
      obtain ⟨buf', h1, h2, h3, h4, h5⟩ := ih (value / 128) (buf.set i (value % 128 + 128)) (i + 1)
        (by omega) (by simp; omega)
      refine ⟨buf', ?_, by simpa using h2, ?_, ?_, ?_⟩
      · have hloop : encode_varint_loop (f + 1) value buf i
            = encode_varint_loop f (value / 128) (buf.set i (value % 128 + 128)) (i + 1) := by
          simp only [encode_varint_loop, h, if_true, hbyte,
            wr_eq_some buf i _ (by omega : i < buf.length), Option.bind_some,
            Nat.shiftRight_eq_div_pow]
          rfl
        rw [hloop, h1]
        congr 2; omega
      · intro j hj; rw [h3 j (by omega), List.getElem?_set_ne (by omega)]
      · intro j hj; rw [h4 j (by omega), List.getElem?_set_ne (by omega)]
      · intro j hj
        cases j with
        | zero =>
          rw [Nat.add_zero, h3 i (by omega), List.getElem?_set_self (by omega)]; simp
        | succ j =>
          have := h5 j (by omega)
          rw [show i + (j + 1) = i + 1 + j by omega, this]
          simp
    · have hvb : varintBytes (f + 1) value = [value] := by simp [varintBytes, h]
      rw [hvb] at hlen ⊢
      simp only [List.length_singleton] at hlen ⊢
      have hbyte : (value &&& 0x7F) % 256 = value := by
        rw [and_7f_eq_mod]; omega
      refine ⟨buf.set i value, ?_, by simp, ?_, ?_, ?_⟩
      · have hloop : encode_varint_loop (f + 1) value buf i = some (value, buf, i) := by
          simp only [encode_varint_loop, h, if_false]
        rw [hloop]
        show (wr buf i ((value &&& 0x7F) % 256)).bind _ = _
        rw [hbyte, wr_eq_some buf i _ (by omega : i < buf.length)]
        rfl
      · intro j hj; rw [List.getElem?_set_ne (by omega)]
      · intro j hj; rw [List.getElem?_set_ne (by omega)]
      · intro j hj
        have : j = 0 := by omega
        subst this
        rw [Nat.add_zero, List.getElem?_set_self (by omega)]; rfl

/-! ## Varint: the decoders read the bytes back -/

theorem lib_decode_step_more (mem : List Nat) (size d pos shift r byte : Nat)
    (hpos : pos < size) (hshift : shift < 32) (hbyte : mem[pos]? = some byte)
    (hcont : ¬ (byte &&& 0x80 = 0)) :
    lib_c.decode_varint_loop mem size (d + 1) pos shift r
      = lib_c.decode_varint_loop mem size d (pos + 1) (shift + 7)
          (r ||| (((byte &&& 0x7F) <<< shift) % 2 ^ 32)) := by
  simp [lib_c.decode_varint_loop, rd, hpos, hshift, hbyte, hcont]

theorem lib_decode_step_last (mem : List Nat) (size d pos shift r byte : Nat)
    (hpos : pos < size) (hshift : shift < 32) (hbyte : mem[pos]? = some byte)
    (hlast : byte &&& 0x80 = 0) :
    lib_c.decode_varint_loop mem size (d + 1) pos shift r
      = some (r ||| (((byte &&& 0x7F) <<< shift) % 2 ^ 32), pos + 1) := by
  simp [lib_c.decode_varint_loop, rd, hpos, hshift, hbyte, hlast]

theorem lib_decode_varint_loop_spec (mem : List Nat) (size : Nat) (fuel : Nat) :
    ∀ (value dfuel pos shift r : Nat), value ≤ fuel →
    (∀ j, j < (varintBytes fuel value).length → mem[pos + j]? = (varintBytes fuel value)[j]?) →
    pos + (varintBytes fuel value).length ≤ size →
    (varintBytes fuel value).length ≤ dfuel →
    shift < 32 → r < 2 ^ shift → r + value * 2 ^ shift < 2 ^ 32 →
    lib_c.decode_varint_loop mem size dfuel pos shift r
      = some (r + value * 2 ^ shift, pos + (varintBytes fuel value).length) := by
  induction fuel with
  | zero =>
    intro value dfuel pos shift r hv hmem hsize hfuel hshift hr hsum
    have hv0 : value = 0 := by omega
    subst hv0
    simp only [varintBytes, List.length_singleton] at hmem hsize hfuel ⊢
    obtain ⟨d, rfl⟩ : ∃ d, dfuel = d + 1 := ⟨dfuel - 1, by omega⟩
    have h0 := hmem 0 (by omega)
    simp only [Nat.add_zero, List.getElem?_cons_zero] at h0
    rw [lib_decode_step_last mem size d pos shift r 0 (by omega) hshift h0 (by decide)]
    simp
  | succ f ih =>
    intro value dfuel pos shift r hv hmem hsize hfuel hshift hr hsum
    obtain ⟨d, rfl⟩ : ∃ d, dfuel = d + 1 :=
      ⟨dfuel - 1, by have := varintBytes_length_pos (f + 1) value; omega⟩
    by_cases h : value ≥ 128
    · have hvb : varintBytes (f + 1) value = (value % 128 + 128) :: varintBytes f (value / 128) := by
        simp [varintBytes, h]
      rw [hvb] at hmem hsize hfuel ⊢
      simp only [List.length_cons] at hmem hsize hfuel ⊢
      have h0 := hmem 0 (by omega)
      simp only [Nat.add_zero, List.getElem?_cons_zero] at h0
      have hb7 : (value % 128 + 128) &&& 0x7F = value % 128 := by
        rw [and_7f_eq_mod]; omega
      have hb8 : ¬ ((value % 128 + 128) &&& 0x80 = 0) := by
        rw [byte_and_80 _ (by omega)]; omega
      have hpow : 2 ^ (shift + 7) = 2 ^ shift * 128 := by rw [Nat.pow_add]
      have hdiv : value = 128 * (value / 128) + value % 128 := (Nat.div_add_mod value 128).symm
      have hexp : value * 2 ^ shift
          = (value % 128) * 2 ^ shift + (value / 128) * 2 ^ (shift + 7) := by
        rw [hpow]; nth_rewrite 1 [hdiv]; ring
      have hg : (value % 128) * 2 ^ shift < 2 ^ 32 := by
        have : (value % 128) * 2 ^ shift ≤ value * 2 ^ shift :=
          Nat.mul_le_mul_right _ (Nat.mod_le _ _)
        omega
      have hacc : r ||| (((value % 128) <<< shift) % 2 ^ 32) = r + (value % 128) * 2 ^ shift :=
        or_shift_eq_add r _ shift hr hg
      have hq : 1 ≤ value / 128 := by omega
      have hshift7 : shift + 7 < 32 := by
        have h1 : 2 ^ (shift + 7) ≤ (value / 128) * 2 ^ (shift + 7) := Nat.le_mul_of_pos_left _ hq
        have h2 : 2 ^ (shift + 7) < 2 ^ 32 := by omega
        exact (Nat.pow_lt_pow_iff_right (by norm_num)).mp h2
      have hr7 : r + (value % 128) * 2 ^ shift < 2 ^ (shift + 7) := by
        have : (value % 128) * 2 ^ shift ≤ 127 * 2 ^ shift :=
          Nat.mul_le_mul_right _ (by omega)
        omega
      have hrec := ih (value / 128) d (pos + 1) (shift + 7) (r + (value % 128) * 2 ^ shift)
        (by omega)
        (by intro j hj
            have := hmem (j + 1) (by omega)
            rw [show pos + 1 + j = pos + (j + 1) by omega, this]; simp)
        (by omega) (by omega) hshift7 hr7 (by omega)
      rw [lib_decode_step_more mem size d pos shift r _ (by omega) hshift h0 hb8, hb7, hacc, hrec]
      congr 2 <;> omega
    · have hvb : varintBytes (f + 1) value = [value] := by simp [varintBytes, h]
      rw [hvb] at hmem hsize hfuel ⊢
      simp only [List.length_singleton] at hmem hsize hfuel ⊢
      have h0 := hmem 0 (by omega)
      simp only [Nat.add_zero, List.getElem?_cons_zero] at h0
      have hb7 : value &&& 0x7F = value := by rw [and_7f_eq_mod]; omega
      have hb8 : value &&& 0x80 = 0 := by rw [byte_and_80 _ (by omega)]; omega
      have hacc : r ||| ((value <<< shift) % 2 ^ 32) = r + value * 2 ^ shift :=
        or_shift_eq_add r _ shift hr (by omega)
      rw [lib_decode_step_last mem size d pos shift r _ (by omega) hshift h0 hb8, hb7, hacc]

/-- The pointer-based loop computes what the offset-based loop computes. -/
theorem leo_decode_loop_eq (mem : List Nat) (endp : Nat) (fuel : Nat) :
    ∀ (pos shift r : Nat), leo.decode_varint_loop mem endp fuel pos shift r
      = (lib_c.decode_varint_loop mem endp fuel pos shift r).map Prod.swap := by
  induction fuel with
  | zero =>
    intro pos shift r
    simp only [leo.decode_varint_loop, lib_c.decode_varint_loop]
    split <;> rfl
  | succ f ih =>
    intro pos shift r
    simp only [leo.decode_varint_loop, lib_c.decode_varint_loop]
    split
    · cases hrd : rd mem pos with
      | none => rfl
      | some byte =>
        show (if _ then _ else _) = Option.map Prod.swap (if _ then _ else _)
        split
        · rfl
        · exact ih _ _ _
    · rfl

/-! ## C3: varint round trip -/

/-- C3. For every unsigned 32-bit value `u`, `encode_varint_u32` writes `k` bytes with
`1 ≤ k ≤ 5` into a buffer of at least five bytes and touches nothing else; and wherever
those `k` bytes sit in a memory (`mem[o + j] = buf'[j]` for `j < k`, whatever bytes
follow), both `decode_varint_u32` variants started at `o` return exactly `u` and advance
the offset / pointer by exactly `k`. -/
theorem varint_roundtrip (u : Nat) (hu : u < 2 ^ 32) (buf : List Nat) (hbuf : 5 ≤ buf.length) :
    ∃ k buf', encode_varint_u32 u buf = some (k, buf') ∧ 1 ≤ k ∧ k ≤ 5 ∧
      buf'.length = buf.length ∧ (∀ j, k ≤ j → buf'[j]? = buf[j]?) ∧
      ∀ (mem : List Nat) (o size : Nat), (∀ j, j < k → mem[o + j]? = buf'[j]?) →
        o + k ≤ size →
        lib_c.decode_varint_u32 mem size o = some (u, o + k) ∧
        leo.decode_varint_u32 mem o size = some (o + k, u) := by
  have hlen5 : (varintBytes u u).length ≤ 5 :=
    varintBytes_length_le u u 5 (by omega) (by norm_num)
  have hlen1 := varintBytes_length_pos u u
  obtain ⟨buf', h1, h2, _, h4, h5⟩ := encode_varint_loop_spec u u buf 0 (le_refl _) (by omega)
  simp only [Nat.zero_add] at h1 h4 h5
  refine ⟨(varintBytes u u).length, buf', h1, hlen1, hlen5, h2, h4, ?_⟩
  intro mem o size hmem hsize
  have hdec := lib_decode_varint_loop_spec mem size u u (size - o) o 0 0 (le_refl _)
    (by intro j hj; rw [hmem j hj, h5 j hj]) hsize (by omega) (by norm_num) (by norm_num)
    (by simpa using hu)
  simp only [Nat.pow_zero, Nat.mul_one, Nat.zero_add] at hdec
  refine ⟨hdec, ?_⟩
  unfold leo.decode_varint_u32
  rw [leo_decode_loop_eq, hdec]
  rfl

/-- C3 at `u = 300` with a six-byte buffer. -/
theorem varint_roundtrip_witness :
    ∃ k buf', encode_varint_u32 300 [9, 9, 9, 9, 9, 9] = some (k, buf') ∧ 1 ≤ k ∧ k ≤ 5 ∧
      buf'.length = [9, 9, 9, 9, 9, 9].length ∧
      (∀ j, k ≤ j → buf'[j]? = [9, 9, 9, 9, 9, 9][j]?) ∧
      ∀ (mem : List Nat) (o size : Nat), (∀ j, j < k → mem[o + j]? = buf'[j]?) →
        o + k ≤ size →
        lib_c.decode_varint_u32 mem size o = some (300, o + k) ∧
        leo.decode_varint_u32 mem o size = some (o + k, 300) :=
  varint_roundtrip 300 (by decide) [9, 9, 9, 9, 9, 9] (by decide)

/-! ## COBS/R encoder: loop invariant -/

namespace leonardo

theorem close_block_inv (L : Nat) (out0 : List Nat) (s : EncState)
    (hlen : s.out.length = L) (hci : s.code_index < s.write_index) (hwi : s.write_index < L)
    (hcode : s.code ≠ 0)
    (hnz : ∀ j, j < s.write_index → j ≠ s.code_index → ∃ v, s.out[j]? = some v ∧ v ≠ 0)
    (hfr : ∀ j, s.write_index ≤ j → s.out[j]? = out0[j]?) :
    ∃ s', close_block s = some s' ∧ s'.out.length = L ∧ s'.code = 1 ∧
      s'.code_index = s.write_index ∧ s'.write_index = s.write_index + 1 ∧
      (∀ j, j < s'.write_index → j ≠ s'.code_index → ∃ v, s'.out[j]? = some v ∧ v ≠ 0) ∧
      (∀ j, s.write_index ≤ j → s'.out[j]? = out0[j]?) := by
  refine ⟨{ out := s.out.set s.code_index s.code, write_index := s.write_index + 1,
            code_index := s.write_index, code := 1 }, ?_, by simpa using hlen, rfl, rfl, rfl, ?_, ?_⟩
  · simp only [close_block, wr_eq_some s.out _ _ (by omega : s.code_index < s.out.length)]
    rfl
  · intro j hj hne
    simp only at hj hne ⊢
    by_cases hjc : j = s.code_index
    · subst hjc
      exact ⟨s.code, List.getElem?_set_self (by omega), hcode⟩
    · rw [List.getElem?_set_ne (by omega)]
      exact hnz j (by omega) hjc
  · intro j hj
    simp only
    rw [List.getElem?_set_ne (by omega)]
    exact hfr j hj

theorem encode_step_inv (L : Nat) (out0 : List Nat) (n i : Nat) (s : EncState) (byte : Nat)
    (hcap : n + n / 254 + 1 ≤ L) (hi : i < n) (inv : EncInv L out0 i s) :
    ∃ s', encode_step s byte = some s' ∧ EncInv L out0 (i + 1) s' := by
  obtain ⟨hlen, hc1, hc254, hblock, ⟨e, hwi, hgrow⟩, hnz, hfr⟩ := inv
  have hwiL : s.write_index < L := by omega
  by_cases hb : byte = 0
  · -- a zero byte closes the block
    obtain ⟨s', h1, h2, h3, h4, h5, h6, h7⟩ :=
      close_block_inv L out0 s hlen (by omega) hwiL (by omega) hnz hfr
    refine ⟨s', by simp [encode_step, hb, h1], ⟨h2, by omega, by omega, by omega, ⟨e, by omega, by omega⟩,
      h6, fun j hj => h7 j (by omega)⟩⟩
  · -- a non-zero byte is copied
    have hwr := wr_eq_some s.out s.write_index byte (by omega)
    by_cases hff : (s.code + 1) % 256 = 0xFF
    · -- the block reached 254 data bytes
      have hnz1 : ∀ j, j < s.write_index + 1 → j ≠ s.code_index →
          ∃ v, (s.out.set s.write_index byte)[j]? = some v ∧ v ≠ 0 := by
        intro j hj hne
        by_cases hjw : j = s.write_index
        · subst hjw
          exact ⟨byte, List.getElem?_set_self (by omega), hb⟩
        · rw [List.getElem?_set_ne (by omega)]
          exact hnz j (by omega) hne
      have hfr1 : ∀ j, s.write_index + 1 ≤ j → (s.out.set s.write_index byte)[j]? = out0[j]? := by
        intro j hj
        rw [List.getElem?_set_ne (by omega)]
        exact hfr j (by omega)
      obtain ⟨s', h1, h2, h3, h4, h5, h6, h7⟩ :=
        close_block_inv L out0
          { out := s.out.set s.write_index byte, write_index := s.write_index + 1,
            code_index := s.code_index, code := (s.code + 1) % 256 }
          (by simpa using hlen) (by simp only; omega) (by simp only; omega) (by simp only; omega)
          hnz1 hfr1
      simp only at h4 h5 h7
      rw [hff] at h1
      refine ⟨s', by simp [encode_step, hb, hwr, hff, h1], ⟨h2, by omega, by omega, by omega,
        ⟨e + 1, by omega, by omega⟩, h6, fun j hj => h7 j (by omega)⟩⟩
    · refine ⟨{ out := s.out.set s.write_index byte, write_index := s.write_index + 1,
                code_index := s.code_index, code := (s.code + 1) % 256 },
        by simp [encode_step, hb, hwr, hff], ⟨by simpa using hlen, by simp only; omega,
          by simp only; omega, by simp only; omega, ⟨e, by simp only; omega, by simp only; omega⟩,
          ?_, ?_⟩⟩
      · intro j hj hne
        simp only at hj hne ⊢
        by_cases hjw : j = s.write_index
        · subst hjw
          exact ⟨byte, List.getElem?_set_self (by omega), hb⟩
        · rw [List.getElem?_set_ne (by omega)]
          exact hnz j (by omega) hne
      · intro j hj
        simp only at hj ⊢
        rw [List.getElem?_set_ne (by omega)]
        exact hfr j (by omega)

theorem encode_loop_inv (L : Nat) (out0 : List Nat) (n : Nat) (hcap : n + n / 254 + 1 ≤ L) :
    ∀ (rest : List Nat) (i : Nat) (s : EncState), i + rest.length = n → EncInv L out0 i s →
    ∃ s', encode_loop rest s = some s' ∧ EncInv L out0 n s' := by
  intro rest
  induction rest with
  | nil =>
    intro i s hi inv
    have : i = n := by simpa using hi
    subst this
    exact ⟨s, rfl, inv⟩
  | cons byte rest ih =>
    intro i s hi inv
    simp only [List.length_cons] at hi
    obtain ⟨s1, h1, inv1⟩ := encode_step_inv L out0 n i s byte hcap (by omega) inv
    obtain ⟨s2, h2, inv2⟩ := ih (i + 1) s1 (by omega) inv1
    exact ⟨s2, by simp [encode_loop, h1, h2], inv2⟩

/-- What `encode_cobsr` does on an output array of sufficient capacity: it returns
a frame length within the bound, leaves everything at or above the bound as it was,
and the frame has no zero byte. -/
theorem encode_cobsr_spec (x out : List Nat) (hcap : x.length + x.length / 254 + 1 ≤ out.length) :
    ∃ len out', encode_cobsr x out = some (len, out') ∧
      len ≤ x.length + x.length / 254 + 1 ∧ out'.length = out.length ∧
      (∀ j, x.length + x.length / 254 + 1 ≤ j → out'[j]? = out[j]?) ∧
      (∀ j, j < len → ∃ v, out'[j]? = some v ∧ v ≠ 0) := by
  by_cases hx : x.length = 0
  · refine ⟨1, out.set 0 1, ?_, by omega, by simp, ?_, ?_⟩
    · simp [encode_cobsr, hx, wr_eq_some out 0 1 (by omega)]
    · intro j hj; rw [List.getElem?_set_ne (by omega)]
    · intro j hj
      have : j = 0 := by omega
      subst this
      exact ⟨1, List.getElem?_set_self (by omega), by decide⟩
  · have inv0 : EncInv out.length out 0
        { out := out, write_index := 1, code_index := 0, code := 1 } :=
      ⟨rfl, by simp, by simp, rfl, ⟨0, by simp, by simp⟩,
        fun j hj hne => by simp only at hj hne; omega, fun j _ => rfl⟩
    obtain ⟨s, hloop, ⟨hlen, hc1, hc254, hblock, ⟨e, hwi, hgrow⟩, hnz, hfr⟩⟩ :=
      encode_loop_inv out.length out x.length hcap x 0 _ (by simp) inv0
    have hwiL : s.write_index - 1 < s.out.length := by omega
    obtain ⟨last, hlastv⟩ : ∃ last, s.out[s.write_index - 1]? = some last :=
      ⟨_, List.getElem?_eq_getElem hwiL⟩
    have hlast : rd s.out (s.write_index - 1) = some last := hlastv
    have hwrc : ∀ v, wr s.out s.code_index v = some (s.out.set s.code_index v) :=
      fun v => wr_eq_some _ _ _ (by omega)
    have hfin : encode_cobsr x out = encode_finish s := by
      simp [encode_cobsr, hx, hloop]
    rw [hfin]
    by_cases hge : last ≥ s.code
    · refine ⟨s.write_index - 1, s.out.set s.code_index last, ?_,
        by omega, by simpa using hlen, ?_, ?_⟩
      · simp [encode_finish, hlast, hge, hwrc]
      · intro j hj
        rw [List.getElem?_set_ne (by omega)]
        exact hfr j (by omega)
      · intro j hj
        by_cases hjc : j = s.code_index
        · subst hjc
          exact ⟨_, List.getElem?_set_self (by omega), by omega⟩
        · rw [List.getElem?_set_ne (by omega)]
          exact hnz j (by omega) hjc
    · refine ⟨s.write_index, s.out.set s.code_index s.code, ?_,
        by omega, by simpa using hlen, ?_, ?_⟩
      · simp [encode_finish, hlast, hge, hwrc]
      · intro j hj
        rw [List.getElem?_set_ne (by omega)]
        exact hfr j (by omega)
      · intro j hj
        by_cases hjc : j = s.code_index
        · subst hjc
          exact ⟨_, List.getElem?_set_self (by omega), by omega⟩
        · rw [List.getElem?_set_ne (by omega)]
          exact hnz j (by omega) hjc

end leonardo

/-! ## Decoding a complete varint -/

theorem or_shift_mod_aux (r g s d : Nat) (hr : r < 2 ^ s) :
    r ||| ((g <<< s) % 2 ^ (s + d)) = (r + g * 2 ^ s) % 2 ^ (s + d) := by
  have hsplit : (2 : Nat) ^ (s + d) = 2 ^ s * 2 ^ d := Nat.pow_add 2 s d
  have hmod : (g * 2 ^ s) % 2 ^ (s + d) = 2 ^ s * (g % 2 ^ d) := by
    rw [hsplit, Nat.mul_comm g, Nat.mul_mod_mul_left]
  have hlt : g % 2 ^ d < 2 ^ d := Nat.mod_lt _ (Nat.pos_pow_of_pos d (by norm_num))
  have hbound : 2 ^ s * (g % 2 ^ d) + r < 2 ^ (s + d) := by
    rw [hsplit]
    calc 2 ^ s * (g % 2 ^ d) + r < 2 ^ s * (g % 2 ^ d) + 2 ^ s := by omega
      _ = 2 ^ s * (g % 2 ^ d + 1) := by ring
      _ ≤ 2 ^ s * 2 ^ d := Nat.mul_le_mul_left _ hlt
  have hrlt : r < 2 ^ (s + d) := by omega
  rw [Nat.shiftLeft_eq, hmod, Nat.lor_comm, ← Nat.mul_add_lt_is_or hr]
  rw [Nat.add_mod, hmod, Nat.mod_eq_of_lt hrlt, Nat.add_comm r, Nat.mod_eq_of_lt hbound]

theorem or_shift_mod (r g s : Nat) (hr : r < 2 ^ s) (hs : s ≤ 32) :
    r ||| ((g <<< s) % 2 ^ 32) = (r + g * 2 ^ s) % 2 ^ 32 := by
  have h := or_shift_mod_aux r g s (32 - s) hr
  rwa [show s + (32 - s) = 32 by omega] at h

theorem varint_terminated_cons_cons (b c : Nat) (rest : List Nat) :
    varint_terminated (b :: c :: rest) = true ↔
      (0x80 ≤ b ∧ b < 256) ∧ varint_terminated (c :: rest) = true := by
  simp [varint_terminated, and_assoc]

theorem varint_terminated_single (b : Nat) : varint_terminated [b] = true ↔ b < 0x80 := by
  simp [varint_terminated]

/-- The offset-based loop on a terminated varint that fits the shift limit. -/
theorem lib_decode_terminated (mem : List Nat) (size : Nat) (v : List Nat) :
    ∀ (dfuel pos shift r : Nat), varint_terminated v = true →
    (∀ j, j < v.length → mem[pos + j]? = v[j]?) →
    pos + v.length ≤ size → v.length ≤ dfuel →
    shift + 7 * v.length ≤ 35 → r < 2 ^ shift →
    lib_c.decode_varint_loop mem size dfuel pos shift r
      = some ((r + varint_value v * 2 ^ shift) % 2 ^ 32, pos + v.length) := by
  induction v with
  | nil => intro _ _ _ _ h; simp [varint_terminated] at h
  | cons b rest ih =>
    intro dfuel pos shift r hterm hmem hsize hfuel hshift hr
    simp only [List.length_cons] at hmem hsize hfuel hshift
    obtain ⟨d, rfl⟩ : ∃ d, dfuel = d + 1 := ⟨dfuel - 1, by omega⟩
    have h0 := hmem 0 (by omega)
    simp only [Nat.add_zero, List.getElem?_cons_zero] at h0
    cases rest with
    | nil =>
      rw [varint_terminated_single] at hterm
      have hb8 : b &&& 0x80 = 0 := by rw [byte_and_80 _ (by omega)]; omega
      have hb7 : b &&& 0x7F = b := by rw [and_7f_eq_mod]; omega
      have hvv : varint_value [b] = b := by
        simp only [varint_value]; omega
      rw [lib_decode_step_last mem size d pos shift r b (by omega) (by omega) h0 hb8, hb7,
        or_shift_mod r b shift hr (by omega), hvv]
      rfl
    | cons c rest =>
      rw [varint_terminated_cons_cons] at hterm
      obtain ⟨⟨hb1, hb2⟩, hterm'⟩ := hterm
      simp only [List.length_cons] at hmem hsize hfuel hshift ih
      have hb8 : ¬ (b &&& 0x80 = 0) := by rw [byte_and_80 _ hb2]; omega
      have hb7 : b &&& 0x7F = b % 128 := and_7f_eq_mod b
      have hpow : 2 ^ (shift + 7) = 2 ^ shift * 128 := by rw [Nat.pow_add]
      have hslt : (2 : Nat) ^ shift ≤ 2 ^ 21 := Nat.pow_le_pow_right (by norm_num) (by omega)
      have hg : (b % 128) * 2 ^ shift < 2 ^ 32 := by
        have : (b % 128) * 2 ^ shift ≤ 127 * 2 ^ 21 := Nat.mul_le_mul (by omega) hslt
        omega
      have hacc : r ||| (((b % 128) <<< shift) % 2 ^ 32) = r + (b % 128) * 2 ^ shift :=
        or_shift_eq_add r _ shift hr hg
      have hr7 : r + (b % 128) * 2 ^ shift < 2 ^ (shift + 7) := by
        have : (b % 128) * 2 ^ shift ≤ 127 * 2 ^ shift := Nat.mul_le_mul_right _ (by omega)
        omega
      have hrec := ih d (pos + 1) (shift + 7) (r + (b % 128) * 2 ^ shift) hterm'
        (by intro j hj
            have := hmem (j + 1) (by omega)
            rw [show pos + 1 + j = pos + (j + 1) by omega, this]; simp)
        (by omega) (by omega) (by omega) hr7
      rw [lib_decode_step_more mem size d pos shift r b (by omega) (by omega) h0 hb8, hb7, hacc,
        hrec]
      have hval : r + (b % 128) * 2 ^ shift + varint_value (c :: rest) * 2 ^ (shift + 7)
          = r + varint_value (b :: c :: rest) * 2 ^ shift := by
        rw [hpow]; simp only [varint_value]; ring
      rw [hval, show pos + 1 + (rest.length + 1) = pos + (rest.length + 1 + 1) by omega]
      rfl

/-- The interpreter's `decode_varint_u32` on a complete varint lying at `pos`. -/
theorem leo_decode_complete (mem : List Nat) (pos endp : Nat) (v : List Nat)
    (hv : varint_complete v = true)
    (hmem : ∀ j, j < v.length → mem[pos + j]? = v[j]?) (hend : pos + v.length ≤ endp) :
    leo.decode_varint_u32 mem pos endp = some (pos + v.length, varint_value v % 2 ^ 32) := by
  simp only [varint_complete, Bool.and_eq_true, decide_eq_true_eq] at hv
  have h := lib_decode_terminated mem endp v (endp - pos) pos 0 0 hv.1 hmem hend (by omega)
    (by omega) (by norm_num)
  unfold leo.decode_varint_u32
  rw [leo_decode_loop_eq, h]
  simp

/-! ## The complex-report branch -/

theorem and_pow_testBit : ∀ m, m < 256 → ∀ i, i < 7 → (m &&& 2 ^ i ≠ 0 ↔ m.testBit i = true) := by
  decide

theorem bits_below_zero (m : Nat) : bits_below m 0 = 0 := rfl

theorem bits_below_succ (m i : Nat) :
    bits_below m (i + 1) = bits_below m i + (if m.testBit i then 1 else 0) := by
  unfold bits_below
  rw [List.range_succ, List.filter_append, List.length_append]
  by_cases h : m.testBit i <;> simp [h]

theorem bits_below_mono (m : Nat) {i j : Nat} (h : i ≤ j) : bits_below m i ≤ bits_below m j := by
  induction j with
  | zero =>
    have : i = 0 := by omega
    subst this; exact le_refl _
  | succ j ih =>
    by_cases hij : i = j + 1
    · subst hij; exact le_refl _
    · have := ih (by omega)
      rw [bits_below_succ]; omega

theorem popcount_low7 : ∀ m, m < 256 → popcount (m &&& 0x7F) = bits_below m 7 := by decide

theorem popcnt_eq : ∀ m, m < 256 → popcnt m = popcount m := by decide

namespace hidVM

theorem literal_spec (buf : List Nat) (m i mask dflt pos q : Nat) (lits : List Nat)
    (hm : m < 256) (hi : i < 7) (hmask : mask = 2 ^ i) (hpos : pos = q + bits_below m i)
    (hl : lits.length = bits_below m 7)
    (hbuf : ∀ j, j < lits.length → buf[q + j]? = lits[j]?) :
    literal buf m mask dflt pos
      = some (if m.testBit i then lits.getD (bits_below m i) 0 else dflt,
              q + bits_below m (i + 1)) := by
  subst hmask hpos
  have hbit := and_pow_testBit m hm i hi
  rw [bits_below_succ]
  by_cases h : m.testBit i = true
  · have hlt : bits_below m i < lits.length := by
      have := bits_below_mono m (show i + 1 ≤ 7 by omega)
      rw [bits_below_succ, if_pos h] at this
      omega
    have hrd : rd buf (q + bits_below m i) = some (lits.getD (bits_below m i) 0) := by
      unfold rd
      rw [hbuf _ hlt, List.getD_eq_getElem _ _ hlt, List.getElem?_eq_getElem hlt]
    simp only [literal, hbit.mpr h, ne_eq, not_false_eq_true, if_true, hrd, Option.some_bind, h]
    rw [Nat.add_assoc]
  · have hz : m &&& 2 ^ i = 0 := by
      by_contra hne
      exact h (hbit.mp hne)
    simp only [literal, hz, ne_eq, not_true_eq_false, if_false, h, Nat.add_zero]
    rfl

/-- The complex-report branch on an opcode followed by its literal bytes. -/
theorem complex_report_spec (buf : List Nat) (m q : Nat) (lits : List Nat)
    (hm : m < 256) (hl : lits.length = popcount (m &&& 0x7F))
    (hbuf : ∀ j, j < lits.length → buf[q + j]? = lits[j]?) :
    complex_report buf m q
      = some ({ d0 := complex_field m lits 0, d1 := complex_field m lits 1,
                d2 := complex_field m lits 2, d3 := complex_field m lits 3,
                d4 := complex_field m lits 4, d5 := complex_field m lits 5,
                d6 := complex_field m lits 6 }, q + lits.length) := by
  rw [popcount_low7 m hm] at hl
  have h0 := literal_spec buf m 0 0x01 0x00 q q lits hm (by norm_num) (by norm_num)
    (by rw [bits_below_zero, Nat.add_zero]) hl hbuf
  have h1 := literal_spec buf m 1 0x02 0x00 _ q lits hm (by norm_num) (by norm_num) rfl hl hbuf
  have h2 := literal_spec buf m 2 0x04 0x00 _ q lits hm (by norm_num) (by norm_num) rfl hl hbuf
  have h3 := literal_spec buf m 3 0x08 0x80 _ q lits hm (by norm_num) (by norm_num) rfl hl hbuf
  have h4 := literal_spec buf m 4 0x10 0x80 _ q lits hm (by norm_num) (by norm_num) rfl hl hbuf
  have h5 := literal_spec buf m 5 0x20 0x80 _ q lits hm (by norm_num) (by norm_num) rfl hl hbuf
  have h6 := literal_spec buf m 6 0x40 0x80 _ q lits hm (by norm_num) (by norm_num) rfl hl hbuf
  unfold complex_report
  rw [h0, Option.some_bind, h1, Option.some_bind, h2, Option.some_bind, h3, Option.some_bind,
    h4, Option.some_bind, h5, Option.some_bind, h6, Option.some_bind, hl]
  rfl

end hidVM

namespace hidVM

/-! ## C7: one tick on a complex report -/

/-- C7. For every opcode `m` with bit 0x80 set that is followed in the loaded program
by `popcount (m & 0x7F)` literal bytes `lits` and a complete hold-time varint `v`
(terminated within five bytes), one non-holding tick of an Executing VM positioned at
`m` returns a report (flag `true`) whose field `i` is the `k`-th literal byte when bit
`i` of `m` is set, `k` being the number of set bits of `m` below bit `i`, and the
neutral default otherwise (0x00 for `i < 3`, 0x80 for `i ≥ 3`); the read position
advances by `1 + popcount (m & 0x7F) + v.length`, `hold_time` becomes the value of the
varint (modulo `2^32`), `hold_start` the clock value, and nothing else changes.  With
`m = 0x80` the report is `{0,0,0,0x80,0x80,0x80,0x80}` and the position advances by
`1 + v.length`. -/
theorem complex_report_tick (set_basic : Nat → Report → Report) (now : Nat) (vm : VM)
    (data : Report) (p m : Nat) (lits v : List Nat)
    (hstate : vm.current_state = State.EXECUTING) (hhold : holding now vm = false)
    (hpos : vm.pos = Ptr.off p) (hm : 0x80 ≤ m ∧ m < 256)
    (hlits : lits.length = popcount (m &&& 0x7F)) (hv : varint_complete v = true)
    (hprog : ∀ j, j < 1 + lits.length + v.length → vm.buf[p + j]? = (m :: (lits ++ v))[j]?)
    (hend : p + 1 + lits.length + v.length ≤ vm.end_) :
    ∃ r, update set_basic now vm data
        = some ({ vm with pos := Ptr.off (p + 1 + lits.length + v.length)
                          hold_time := varint_value v % 2 ^ 32
                          hold_start := now }, r, true) ∧
      (∀ i, i < 7 →
        (m.testBit i = true → lits[bits_below m i]? = some (r.byte i)) ∧
        (m.testBit i = false → r.byte i = field_default i)) ∧
      (m = 0x80 → lits = [] ∧
        r = { d0 := 0, d1 := 0, d2 := 0, d3 := 0x80, d4 := 0x80, d5 := 0x80, d6 := 0x80 }) := by
  have hopc : rd vm.buf p = some m := by
    have := hprog 0 (by omega)
    simpa [rd] using this
  have hbit : ¬ (m &&& 0x80 = 0) := by rw [byte_and_80 m hm.2]; omega
  have hlit : ∀ j, j < lits.length → vm.buf[p + 1 + j]? = lits[j]? := by
    intro j hj
    have := hprog (j + 1) (by omega)
    rw [show p + 1 + j = p + (j + 1) by omega, this, List.getElem?_cons_succ,
      List.getElem?_append_left hj]
  have hvar : ∀ j, j < v.length → vm.buf[p + 1 + lits.length + j]? = v[j]? := by
    intro j hj
    have := hprog (1 + lits.length + j) (by omega)
    rw [show p + 1 + lits.length + j = p + (1 + lits.length + j) by omega, this,
      show 1 + lits.length + j = (lits.length + j) + 1 by omega, List.getElem?_cons_succ,
      List.getElem?_append_right (by omega)]
    congr 1; omega
  have hcr := complex_report_spec vm.buf m (p + 1) lits hm.2 hlits hlit
  have hdec := leo_decode_complete vm.buf (p + 1 + lits.length) vm.end_ v hv hvar (by omega)
  refine ⟨{ d0 := complex_field m lits 0, d1 := complex_field m lits 1,
            d2 := complex_field m lits 2, d3 := complex_field m lits 3,
            d4 := complex_field m lits 4, d5 := complex_field m lits 5,
            d6 := complex_field m lits 6 }, ?_, ?_, ?_⟩
  · unfold update
    rw [if_neg (by rw [hstate]; decide), hhold]
    have hlt : ¬ (p ≥ vm.end_) := by omega
    simp only [Bool.false_eq_true, if_false, pos_ge_end, hpos, hlt, decide_False, hopc,
      Option.some_bind, hbit, hcr, arm_hold, hdec]
  · intro i hi
    have hlow := popcount_low7 m hm.2
    constructor
    · intro hb
      have hlt : bits_below m i < lits.length := by
        have := bits_below_mono m (show i + 1 ≤ 7 by omega)
        rw [bits_below_succ, if_pos hb] at this
        omega
      have hval : ({ d0 := complex_field m lits 0, d1 := complex_field m lits 1,
                     d2 := complex_field m lits 2, d3 := complex_field m lits 3,
                     d4 := complex_field m lits 4, d5 := complex_field m lits 5,
                     d6 := complex_field m lits 6 } : Report).byte i
          = complex_field m lits i := by
        interval_cases i <;> rfl
      rw [hval, complex_field, if_pos hb, List.getD_eq_getElem _ _ hlt,
        List.getElem?_eq_getElem hlt]
    · intro hb
      have hval : ({ d0 := complex_field m lits 0, d1 := complex_field m lits 1,
                     d2 := complex_field m lits 2, d3 := complex_field m lits 3,
                     d4 := complex_field m lits 4, d5 := complex_field m lits 5,
                     d6 := complex_field m lits 6 } : Report).byte i
          = complex_field m lits i := by
        interval_cases i <;> rfl
      rw [hval, complex_field, hb]
      rfl
  · intro h80
    subst h80
    have hl0 : lits = [] := by
      apply List.eq_nil_of_length_eq_zero
      rw [hlits]; decide
    subst hl0
    exact ⟨rfl, by decide⟩

end hidVM

namespace hidVM

/-- C7 on the program `[0x85, 0x11, 0x22, 0x90, 0x03]`: opcode 0x85 (bits 0 and 2), the
literal bytes 0x11 and 0x22, and the two-byte hold-time varint of 400. -/
theorem complex_report_tick_witness :
    ∃ r, update (fun _ d => d) 1000 (start (loaded [0x85, 0x11, 0x22, 0x90, 0x03]))
          { d0 := 1, d1 := 2, d2 := 3, d3 := 4, d4 := 5, d5 := 6, d6 := 7 }
        = some ({ start (loaded [0x85, 0x11, 0x22, 0x90, 0x03]) with
                    pos := Ptr.off (0 + 1 + [0x11, 0x22].length + [0x90, 0x03].length)
                    hold_time := varint_value [0x90, 0x03] % 2 ^ 32
                    hold_start := 1000 }, r, true) ∧
      (∀ i, i < 7 →
        (Nat.testBit 0x85 i = true → [0x11, 0x22][bits_below 0x85 i]? = some (r.byte i)) ∧
        (Nat.testBit 0x85 i = false → r.byte i = field_default i)) ∧
      (0x85 = 0x80 → [0x11, 0x22] = [] ∧
        r = { d0 := 0, d1 := 0, d2 := 0, d3 := 0x80, d4 := 0x80, d5 := 0x80, d6 := 0x80 }) :=
  complex_report_tick (fun _ d => d) 1000 (start (loaded [0x85, 0x11, 0x22, 0x90, 0x03]))
    { d0 := 1, d1 := 2, d2 := 3, d3 := 4, d4 := 5, d5 := 6, d6 := 7 } 0 0x85 [0x11, 0x22]
    [0x90, 0x03] (by decide) (by decide) (by decide) (by decide) (by decide) (by decide)
    (by decide) (by decide)

/-! ## C6: one basic report -/

/-- One non-holding tick on a basic report `op` followed by a complete hold-time
varint `v`. -/
theorem basic_report_tick (set_basic : Nat → Report → Report) (now : Nat) (vm : VM)
    (data : Report) (p op : Nat) (v : List Nat)
    (hstate : vm.current_state = State.EXECUTING) (hhold : holding now vm = false)
    (hpos : vm.pos = Ptr.off p) (hop : 0x10 ≤ op ∧ op ≤ 0x36)
    (hv : varint_complete v = true)
    (hprog : ∀ j, j < 1 + v.length → vm.buf[p + j]? = (op :: v)[j]?)
    (hend : p + 1 + v.length ≤ vm.end_) :
    update set_basic now vm data
      = some ({ vm with pos := Ptr.off (p + 1 + v.length)
                        hold_time := varint_value v % 2 ^ 32
                        hold_start := now },
              if op = 0x10 then set_neutral data else set_basic op data, true) := by
  have hopc : rd vm.buf p = some op := by
    have := hprog 0 (by omega)
    simpa [rd] using this
  have hbit : op &&& 0x80 = 0 := by rw [byte_and_80 op (by omega)]; omega
  have hvar : ∀ j, j < v.length → vm.buf[p + 1 + j]? = v[j]? := by
    intro j hj
    have := hprog (j + 1) (by omega)
    rw [show p + 1 + j = p + (j + 1) by omega, this, List.getElem?_cons_succ]
  have hdec := leo_decode_complete vm.buf (p + 1) vm.end_ v hv hvar (by omega)
  have hlt : ¬ (p ≥ vm.end_) := by omega
  have h0e : op ≠ 0x0e := by omega
  have h0f : op ≠ 0x0f := by omega
  unfold update
  rw [if_neg (by rw [hstate]; decide), hhold]
  by_cases h10 : op = 0x10
  · subst h10
    simp only [Bool.false_eq_true, if_false, pos_ge_end, hpos, hlt, decide_False, hopc,
      Option.some_bind, hbit, if_true, arm_hold, hdec]
    rfl
  · have hrange : 0x11 ≤ op ∧ op ≤ 0x36 := by omega
    simp only [Bool.false_eq_true, if_false, pos_ge_end, hpos, hlt, decide_False, hopc,
      Option.some_bind, hbit, if_true, h0e, h0f, h10, hrange, and_self, arm_hold, hdec]

theorem push_basic_zero_hold (op : Nat) (hop : 0x10 ≤ op ∧ op ≤ 0x36) :
    push fresh [op, 0x00] 2 = some (loaded [op, 0x00]) := by
  have hbit : op &&& 0x80 = 0 := by rw [byte_and_80 op (by omega)]; omega
  have h0e : op ≠ 0x0e := by omega
  have h0f : op ≠ 0x0f := by omega
  have hrange : 0x10 ≤ op ∧ op ≤ 0x7f := by omega
  have hsize : instruction_size [op, 0x00] 2 = some 2 := by
    simp [instruction_size, rd, hbit, h0e, h0f, hrange, varint_size, varint_size_loop, SIZE_MOD]
  unfold push
  rw [if_neg (by decide), if_neg (by decide), hsize]
  rfl

/-- C6. For every basic-report opcode `op` in `0x10 .. 0x36`: `push` of `[op, 0x00]` into
a fresh VM loads the two bytes; after `start`, the first tick returns a report (flag
`true`; for `op = 0x10` the report of `set_neutral`, `{0,0,0,0x80,0x80,0x80,0x80}`) and
leaves the VM Executing with the read position at the end of the loaded bytes; the
second tick returns no report and leaves the VM Idle. -/
theorem single_instruction_lifecycle (set_basic : Nat → Report → Report) (op t1 t2 : Nat)
    (data : Report) (hop : 0x10 ≤ op ∧ op ≤ 0x36) :
    ∃ vm1 vm2 vm3 r,
      push fresh [op, 0x00] 2 = some vm1 ∧ vm1.end_ = 2 ∧ vm1.buf.take 2 = [op, 0x00] ∧
      update set_basic t1 (start vm1) data = some (vm2, r, true) ∧
      (op = 0x10 →
        r = { d0 := 0, d1 := 0, d2 := 0, d3 := 0x80, d4 := 0x80, d5 := 0x80, d6 := 0x80 }) ∧
      (op ≠ 0x10 → r = set_basic op data) ∧
      vm2.current_state = State.EXECUTING ∧ vm2.pos = Ptr.off vm2.end_ ∧ vm2.end_ = 2 ∧
      update set_basic t2 vm2 r = some (vm3, r, false) ∧
      vm3.current_state = State.IDLE := by
  have h1 := basic_report_tick set_basic t1 (start (loaded [op, 0x00])) data 0 op [0x00]
    rfl rfl rfl hop (by decide)
    (by intro j hj
        have hj2 : j < 2 := hj
        interval_cases j <;> rfl)
    (Nat.le_refl 2)
  have h2 : update set_basic t2
        { start (loaded [op, 0x00]) with pos := Ptr.off 2, hold_start := t1 }
        (if op = 0x10 then set_neutral data else set_basic op data)
      = some ({ start (loaded [op, 0x00]) with
                  pos := Ptr.off 2, hold_start := t1, current_state := State.IDLE },
              if op = 0x10 then set_neutral data else set_basic op data, false) := by
    rfl
  refine ⟨loaded [op, 0x00],
    { start (loaded [op, 0x00]) with pos := Ptr.off 2, hold_start := t1 },
    { start (loaded [op, 0x00]) with
        pos := Ptr.off 2, hold_start := t1, current_state := State.IDLE },
    if op = 0x10 then set_neutral data else set_basic op data,
    push_basic_zero_hold op hop, rfl, rfl, ?_, ?_, ?_, rfl, rfl, rfl, h2, rfl⟩
  · rw [h1]; rfl
  · intro h; rw [if_pos h]; rfl
  · intro h; rw [if_neg h]

/-- C6 at the neutral report, opcode 0x10. -/
theorem single_instruction_lifecycle_witness :
    (0x10 ≤ 0x10 ∧ 0x10 ≤ 0x36) ∧
    ∃ vm1 vm2 vm3 r,
      push fresh [0x10, 0x00] 2 = some vm1 ∧ vm1.end_ = 2 ∧ vm1.buf.take 2 = [0x10, 0x00] ∧
      update (fun _ d => d) 5 (start vm1)
          { d0 := 1, d1 := 2, d2 := 3, d3 := 4, d4 := 5, d5 := 6, d6 := 7 }
        = some (vm2, r, true) ∧
      (0x10 = 0x10 →
        r = { d0 := 0, d1 := 0, d2 := 0, d3 := 0x80, d4 := 0x80, d5 := 0x80, d6 := 0x80 }) ∧
      (0x10 ≠ 0x10 →
        r = (fun _ d => d) 0x10
              { d0 := 1, d1 := 2, d2 := 3, d3 := 4, d4 := 5, d5 := 6, d6 := 7 }) ∧
      vm2.current_state = State.EXECUTING ∧ vm2.pos = Ptr.off vm2.end_ ∧ vm2.end_ = 2 ∧
      update (fun _ d => d) 6 vm2 r = some (vm3, r, false) ∧
      vm3.current_state = State.IDLE :=
  ⟨by decide,
   single_instruction_lifecycle (fun _ d => d) 0x10 5 6
      { d0 := 1, d1 := 2, d2 := 3, d3 := 4, d4 := 5, d5 := 6, d6 := 7 } (by decide)⟩

end hidVM

/-! ## C10: calls that change nothing -/

theorem varint_size_loop_terminated (mem : List Nat) (base size : Nat) (v : List Nat) :
    ∀ (fuel i : Nat), varint_terminated v = true →
    (∀ j, j < v.length → mem[base + i + j]? = v[j]?) →
    i + v.length ≤ size → v.length ≤ fuel →
    varint_size_loop mem base size fuel i = some (i + v.length) := by
  induction v with
  | nil => intro _ _ h; simp [varint_terminated] at h
  | cons b rest ih =>
    intro fuel i hterm hmem hsize hfuel
    simp only [List.length_cons] at hmem hsize hfuel
    obtain ⟨f, rfl⟩ : ∃ f, fuel = f + 1 := ⟨fuel - 1, by omega⟩
    have h0 := hmem 0 (by omega)
    simp only [Nat.add_zero, List.getElem?_cons_zero] at h0
    have hi : i < size := by omega
    cases rest with
    | nil =>
      rw [varint_terminated_single] at hterm
      have hb8 : b &&& 0x80 = 0 := by rw [byte_and_80 _ (by omega)]; omega
      simp [varint_size_loop, hi, rd, h0, hb8]
    | cons c rest =>
      rw [varint_terminated_cons_cons] at hterm
      obtain ⟨⟨hb1, hb2⟩, hterm'⟩ := hterm
      have hb8 : ¬ (b &&& 0x80 = 0) := by rw [byte_and_80 _ hb2]; omega
      have hrec := ih f (i + 1) hterm'
        (by intro j hj
            have := hmem (j + 1) (by simp only [List.length_cons] at hj ⊢; omega)
            rw [show base + (i + 1) + j = base + i + (j + 1) by omega, this]; simp)
        (by simp only [List.length_cons] at hsize ⊢; omega)
        (by simp only [List.length_cons] at hfuel ⊢; omega)
      simp only [varint_size_loop, hi, if_true, rd, h0, Option.some_bind, hb8, if_false, hrec]
      simp only [List.length_cons]
      congr 1; omega

theorem varint_size_terminated (mem : List Nat) (base size : Nat) (v : List Nat)
    (hv : varint_terminated v = true) (hmem : ∀ j, j < v.length → mem[base + j]? = v[j]?)
    (hsize : v.length ≤ size) :
    varint_size mem base size = some v.length := by
  have h := varint_size_loop_terminated mem base size v size 0 hv
    (by intro j hj; rw [Nat.add_zero]; exact hmem j hj) (by omega) hsize
  rw [Nat.zero_add] at h
  exact h

theorem popcnt_complex : ∀ m, m < 256 → 0x80 ≤ m → popcnt m = 1 + popcount (m &&& 0x7F) := by
  decide

namespace hidVM

theorem instruction_size_op_varint (op : Nat) (v extra : List Nat)
    (hbit : op &&& 0x80 = 0) (hop : op = 0x0e ∨ (0x10 ≤ op ∧ op ≤ 0x7f))
    (hv : varint_terminated v = true) (hsmall : v.length + 1 + extra.length < SIZE_MOD) :
    instruction_size (op :: (v ++ extra)) (v.length + 1 + extra.length)
      = some (v.length + 1) := by
  have hvs := varint_size_terminated (op :: (v ++ extra)) 1 (v.length + extra.length) v hv
    (by intro j hj
        rw [show 1 + j = j + 1 by omega, List.getElem?_cons_succ,
          List.getElem?_append_left hj])
    (by omega)
  have hne : v.length + 1 + extra.length ≠ 0 := by omega
  have hsub : v.length + 1 + extra.length - 1 = v.length + extra.length := by omega
  have hres : (1 + v.length) % SIZE_MOD = v.length + 1 := by
    rw [Nat.mod_eq_of_lt (by omega)]; omega
  rcases hop with h0e | hrange
  · subst h0e
    simp only [instruction_size, hne, if_false, rd, List.getElem?_cons_zero, Option.some_bind,
      hbit, ne_eq, not_true_eq_false, if_true, hsub, hvs, hres]
  · have h0e : op ≠ 0x0e := by omega
    have h0f : op ≠ 0x0f := by omega
    simp only [instruction_size, hne, if_false, rd, List.getElem?_cons_zero, Option.some_bind,
      hbit, ne_eq, not_true_eq_false, h0e, h0f, hrange, and_self, if_true, hsub, hvs, hres]

/-- What `instruction_size` returns: it measures a well-formed instruction at the start of a candidate,
whatever follows it in the candidate. -/
theorem instruction_size_of_instruction (instr extra : List Nat) (hinstr : IsInstruction instr)
    (hsmall : instr.length + extra.length < SIZE_MOD) :
    instruction_size (instr ++ extra) (instr.length + extra.length) = some instr.length := by
  have hmod : SIZE_MOD = 65536 := rfl
  rcases hinstr with h | ⟨v, hv, h⟩ | ⟨op, v, h1, h2, hv, h⟩ | ⟨m, lits, v, h1, h2, hl, hv, h⟩
  · subst h
    have hne : 1 + extra.length ≠ 0 := by omega
    have hbit : (0x0f &&& 0x80 = 0) := by decide
    have h0e : ¬ (0x0f = 0x0e) := by decide
    simp only [instruction_size, hne, if_false, rd, List.cons_append, List.getElem?_cons_zero,
      Option.some_bind, hbit, ne_eq, not_true_eq_false, if_true, List.length_singleton, h0e]
  · subst h
    exact instruction_size_op_varint 0x0e v extra (by decide) (Or.inl rfl) hv
      (by simpa using hsmall)
  · subst h
    exact instruction_size_op_varint op v extra (by rw [byte_and_80 op (by omega)]; omega)
      (Or.inr (by omega)) hv (by simpa using hsmall)
  · subst h
    have hlen := popcnt_complex m h2 h1
    have hvs := varint_size_terminated (m :: (lits ++ v ++ extra)) (popcnt m)
      (v.length + extra.length) v hv
      (by intro j hj
          rw [hlen, ← hl, show 1 + lits.length + j = (lits.length + j) + 1 by omega,
            List.getElem?_cons_succ, List.append_assoc,
            List.getElem?_append_right (by omega), List.getElem?_append_left (by omega)]
          congr 1; omega)
      (by omega)
    simp only [List.length_cons, List.length_append] at hsmall ⊢
    have hne : lits.length + v.length + 1 + extra.length ≠ 0 := by omega
    have hbit : ¬ (m &&& 0x80 = 0) := by rw [byte_and_80 m h2]; omega
    have hsub : (lits.length + v.length + 1 + extra.length + SIZE_MOD - popcnt m) % SIZE_MOD
        = v.length + extra.length := by
      rw [hlen, ← hl, hmod]
      omega
    have hres : (popcnt m + v.length) % SIZE_MOD = lits.length + v.length + 1 := by
      rw [hlen, ← hl, Nat.mod_eq_of_lt (by omega)]; omega
    simp only [instruction_size, hne, if_false, rd, List.cons_append, List.getElem?_cons_zero,
      Option.some_bind, ne_eq, hbit, not_false_eq_true, if_true, hsub, hvs, hres]

/-- The part of C10 that holds. Called while the VM is Executing, `push`, `clear` and
`start` return the state unchanged in every component; called while it is Idle, `stop`
returns the state unchanged and `update` returns the state and `data` unchanged with
the flag `false`.  In the Idle state `push` returns the state unchanged (so buffer and
write position are unchanged) whenever `instruction_size` of the candidate differs from
its size, and in particular for every candidate made of one well-formed instruction
followed by at least one extra byte (a declared size larger than the instruction).  A
declared size smaller than the instruction is not covered, and can be accepted. -/
theorem silent_no_op (set_basic : Nat → Report → Report) (now : Nat) (vmE vmI : VM)
    (data : List Nat) (size : Nat) (report : Report) (instr extra : List Nat)
    (hE : vmE.current_state = State.EXECUTING) (hI : vmI.current_state = State.IDLE)
    (hinstr : IsInstruction instr) (hextra : extra ≠ []) :
    push vmE data size = some vmE ∧ clear vmE = vmE ∧ start vmE = vmE ∧
    stop vmI = vmI ∧ update set_basic now vmI report = some (vmI, report, false) ∧
    (∀ isz, instruction_size data size = some isz → isz ≠ size →
      push vmI data size = some vmI) ∧
    push vmI (instr ++ extra) (instr.length + extra.length) = some vmI := by
  refine ⟨?_, ?_, ?_, ?_, ?_, ?_, ?_⟩
  · simp [push, hE]
  · simp [clear, hE]
  · simp [start, hE]
  · simp [stop, hI]
  · simp [update, hI]
  · intro isz hsz hne
    unfold push
    rw [if_neg (by rw [hI]; decide)]
    split
    · rfl
    · rw [hsz, Option.some_bind, if_pos hne]
  · unfold push
    rw [if_neg (by rw [hI]; decide)]
    split
    · rfl
    · rename_i hcap
      have hcap' : vmI.end_ + (instr.length + extra.length) ≤ 1024 := by
        simpa [BUFFER_SIZE] using hcap
      have hsmall : instr.length + extra.length < SIZE_MOD := by
        have : SIZE_MOD = 65536 := rfl
        omega
      have hpos : 0 < extra.length := List.length_pos.mpr hextra
      rw [instruction_size_of_instruction instr extra hinstr hsmall, Option.some_bind,
        if_pos (by omega)]

/-- The lemma `silent_no_op` at a started and a fresh VM, with the candidate
`[0x10, 0x00, 0x11, 0x00]`: a complete neutral report followed by two extra bytes. -/
theorem silent_no_op_witness :
    push (start fresh) [0x10, 0x00] 2 = some (start fresh) ∧
    clear (start fresh) = start fresh ∧ start (start fresh) = start fresh ∧
    stop fresh = fresh ∧
    update (fun _ d => d) 7 fresh { d0 := 1, d1 := 2, d2 := 3, d3 := 4, d4 := 5, d5 := 6, d6 := 7 }
      = some (fresh, { d0 := 1, d1 := 2, d2 := 3, d3 := 4, d4 := 5, d5 := 6, d6 := 7 }, false) ∧
    (∀ isz, instruction_size [0x10, 0x00] 2 = some isz → isz ≠ 2 →
      push fresh [0x10, 0x00] 2 = some fresh) ∧
    push fresh ([0x10, 0x00] ++ [0x11, 0x00]) ([0x10, 0x00].length + [0x11, 0x00].length)
      = some fresh :=
  silent_no_op (fun _ d => d) 7 (start fresh) fresh [0x10, 0x00] 2
    { d0 := 1, d1 := 2, d2 := 3, d3 := 4, d4 := 5, d5 := 6, d6 := 7 } [0x10, 0x00] [0x11, 0x00]
    (by decide) (by decide)
    (Or.inr (Or.inr (Or.inl ⟨0x10, [0x00], by decide, by decide, by decide, rfl⟩)))
    (by decide)

end hidVM

/-! ## C1, C2, C4: the COBS/R codec -/

/-- C1 (evaluation at the failing input). The payload `[0x00]` encoded into an output
array whose second byte is non-zero beforehand gives the one-byte frame `[0x01]`:
after the loop `out[write_index - 1]` is the reserved, never written code slot, its
old content `0xAA` passes the test `last >= code`, and the slot is dropped.
`decode_cobsr` on that frame returns length 0, not the payload.  On a zeroed output
array the same payload gives the frame `[0x01, 0x01]`, which decodes to `[0x00]`. -/
theorem cobsr_roundtrip_dirty_output :
    leonardo.encode_cobsr [0x00] [0xAA, 0xAA] = some (1, [0x01, 0xAA]) ∧
    leonardo.decode_cobsr [0x01] 1 [0xAA] = some (0, [0xAA]) ∧
    leonardo.encode_cobsr [0x00] [0x00, 0x00] = some (2, [0x01, 0x01]) ∧
    leonardo.decode_cobsr [0x01, 0x01] 2 [0xAA, 0xAA] = some (1, [0x00, 0xAA]) := by
  decide

/-- C2. For every input `x` of length `n` and every output array of capacity at least
`max_encoded_size n = n + n / 254 + 1` (whatever it holds), `encode_cobsr` runs without
touching an index outside the array, returns a length of at most `max_encoded_size n`,
and leaves every element at an index `≥ max_encoded_size n` as it was; in particular a
capacity of exactly `max_encoded_size n` is enough. -/
theorem encode_cobsr_size_bound (x out : List Nat)
    (hcap : cobsr.max_encoded_size x.length ≤ out.length) :
    cobsr.max_encoded_size x.length = x.length + x.length / 254 + 1 ∧
    ∃ len out', leonardo.encode_cobsr x out = some (len, out') ∧
      len ≤ cobsr.max_encoded_size x.length ∧ out'.length = out.length ∧
      ∀ j, cobsr.max_encoded_size x.length ≤ j → out'[j]? = out[j]? := by
  obtain ⟨len, out', h1, h2, h3, h4, _⟩ := leonardo.encode_cobsr_spec x out hcap
  exact ⟨rfl, len, out', h1, h2, h3, h4⟩

/-- C2 at the payload `[5, 0, 7]` with an output array of exactly four bytes. -/
theorem encode_cobsr_size_bound_witness :
    cobsr.max_encoded_size [5, 0, 7].length ≤ [0xAA, 0xAA, 0xAA, 0xAA].length ∧
    (cobsr.max_encoded_size [5, 0, 7].length = [5, 0, 7].length + [5, 0, 7].length / 254 + 1 ∧
    ∃ len out', leonardo.encode_cobsr [5, 0, 7] [0xAA, 0xAA, 0xAA, 0xAA] = some (len, out') ∧
      len ≤ cobsr.max_encoded_size [5, 0, 7].length ∧
      out'.length = [0xAA, 0xAA, 0xAA, 0xAA].length ∧
      ∀ j, cobsr.max_encoded_size [5, 0, 7].length ≤ j →
        out'[j]? = [0xAA, 0xAA, 0xAA, 0xAA][j]?) :=
  ⟨by decide, encode_cobsr_size_bound [5, 0, 7] [0xAA, 0xAA, 0xAA, 0xAA] (by decide)⟩

/-- C4. For every input `x` and every output array of sufficient capacity (whatever it
holds), `encode_cobsr` returns a frame length `len` and none of the first `len` bytes of
the output is 0x00. -/
theorem encode_cobsr_zero_free (x out : List Nat)
    (hcap : cobsr.max_encoded_size x.length ≤ out.length) :
    ∃ len out', leonardo.encode_cobsr x out = some (len, out') ∧
      ∀ j, j < len → ∃ v, out'[j]? = some v ∧ v ≠ 0 := by
  obtain ⟨len, out', h1, _, _, _, h5⟩ := leonardo.encode_cobsr_spec x out hcap
  exact ⟨len, out', h1, h5⟩

/-- C4 at the payload `[0, 0, 3, 0]` with a dirty six-byte output array. -/
theorem encode_cobsr_zero_free_witness :
    cobsr.max_encoded_size [0, 0, 3, 0].length ≤ [9, 0, 9, 0, 9, 0].length ∧
    ∃ len out', leonardo.encode_cobsr [0, 0, 3, 0] [9, 0, 9, 0, 9, 0] = some (len, out') ∧
      ∀ j, j < len → ∃ v, out'[j]? = some v ∧ v ≠ 0 :=
  ⟨by decide, encode_cobsr_zero_free [0, 0, 3, 0] [9, 0, 9, 0, 9, 0] (by decide)⟩

/-! ## C5, C8, C9: evaluations of the interpreter -/

namespace hidVM

/-- One non-holding tick on LoopEnd with a non-empty loop stack: the count is taken
from the table entry, and `pos` from its `start_pos` unless the count reaches 0. -/
theorem loop_end_tick (set_basic : Nat → Report → Report) (now : Nat) (vm : VM)
    (data : Report) (p : Nat) (entry : Loop)
    (hstate : vm.current_state = State.EXECUTING) (hhold : holding now vm = false)
    (hpos : vm.pos = Ptr.off p) (hp : p < vm.end_) (hop : vm.buf[p]? = some 0x0f)
    (hdepth : vm.loop_depth ≠ 0) (hentry : vm.loop_table[vm.loop_depth - 1]? = some entry) :
    update set_basic now vm data
      = if (entry.count + 2 ^ 32 - 1) % 2 ^ 32 = 0 then
          some ({ vm with hold_time := 0, pos := Ptr.off (p + 1),
                          loop_depth := vm.loop_depth - 1 }, data, false)
        else some ({ vm with hold_time := 0, pos := entry.start_pos }, data, false) := by
  have hlt : ¬ (p ≥ vm.end_) := by omega
  have hbit : (0x0f &&& 0x80 = 0) := by decide
  have h0e : ¬ (0x0f = 0x0e) := by decide
  unfold update
  rw [if_neg (by rw [hstate]; decide), hhold]
  simp only [Bool.false_eq_true, if_false, pos_ge_end, hpos, hlt, decide_False]
  simp only [rd, hop, Option.some_bind]
  rw [if_pos hbit, if_neg h0e, if_pos trivial, if_neg hdepth, hentry, Option.some_bind]

/-- A tick of an Executing, non-holding VM whose read position is the null pointer
is a fault. -/
theorem null_pos_tick (set_basic : Nat → Report → Report) (now : Nat) (vm : VM)
    (data : Report) (hstate : vm.current_state = State.EXECUTING)
    (hhold : holding now vm = false) (hpos : vm.pos = Ptr.null) :
    update set_basic now vm data = none := by
  unfold update
  rw [if_neg (by rw [hstate]; decide), hhold]
  simp only [Bool.false_eq_true, if_false, pos_ge_end, hpos]

/-- C5 (evaluation at the spec's instance, loop count 3). The program
`[0x0E, 0x03] [0x11, 0x00] [0x0F]` is accepted by `push`; after `start`, the first tick
executes LoopStart (no report, loop depth 1), the second returns the report of opcode
0x11, and the third executes LoopEnd: it reads `loop_table[0]`, which LoopStart never
wrote (its assignments went to a local copy), so the count 0 wraps to `2^32 - 1` and
`pos` becomes the table's null `start_pos`.  After three ticks one report has been
returned, the VM is still Executing, and the fourth tick dereferences the null
pointer. -/
theorem loop_program_returns_one_report (set_basic : Nat → Report → Report)
    (t1 t2 t3 t4 : Nat) (data : Report) :
    push_all fresh [[0x0E, 0x03], [0x11, 0x00], [0x0F]]
      = some (loaded [0x0E, 0x03, 0x11, 0x00, 0x0F]) ∧
    ticks set_basic [t1, t2, t3] (start (loaded [0x0E, 0x03, 0x11, 0x00, 0x0F])) data
      = some ({ start (loaded [0x0E, 0x03, 0x11, 0x00, 0x0F]) with
                  pos := Ptr.null, loop_depth := 1, hold_start := t2 },
              set_basic 0x11 data, [false, true, false]) ∧
    ({ start (loaded [0x0E, 0x03, 0x11, 0x00, 0x0F]) with
        pos := Ptr.null, loop_depth := 1, hold_start := t2 } : VM).current_state
      = State.EXECUTING ∧
    update set_basic t4
        { start (loaded [0x0E, 0x03, 0x11, 0x00, 0x0F]) with
            pos := Ptr.null, loop_depth := 1, hold_start := t2 }
        (set_basic 0x11 data) = none := by
  have h1 : update set_basic t1 (start (loaded [0x0E, 0x03, 0x11, 0x00, 0x0F])) data
      = some ({ start (loaded [0x0E, 0x03, 0x11, 0x00, 0x0F]) with
                  pos := Ptr.off 2, loop_depth := 1 }, data, false) := by
    rfl
  have h2 : update set_basic t2
        { start (loaded [0x0E, 0x03, 0x11, 0x00, 0x0F]) with pos := Ptr.off 2, loop_depth := 1 }
        data
      = some ({ start (loaded [0x0E, 0x03, 0x11, 0x00, 0x0F]) with
                  pos := Ptr.off 4, loop_depth := 1, hold_start := t2 },
              set_basic 0x11 data, true) := by
    rfl
  have h3 : update set_basic t3
        { start (loaded [0x0E, 0x03, 0x11, 0x00, 0x0F]) with
            pos := Ptr.off 4, loop_depth := 1, hold_start := t2 }
        (set_basic 0x11 data)
      = some ({ start (loaded [0x0E, 0x03, 0x11, 0x00, 0x0F]) with
                  pos := Ptr.null, loop_depth := 1, hold_start := t2 },
              set_basic 0x11 data, false) := by
    have h := loop_end_tick set_basic t3
      { start (loaded [0x0E, 0x03, 0x11, 0x00, 0x0F]) with
          pos := Ptr.off 4, loop_depth := 1, hold_start := t2 }
      (set_basic 0x11 data) 4 { count := 0, start_pos := Ptr.null } rfl rfl rfl
      (show 4 < 5 by decide) rfl (show (1 : Nat) ≠ 0 by decide) rfl
    rw [h, if_neg (by decide)]
    rfl
  refine ⟨by decide, ?_, rfl, ?_⟩
  · unfold ticks
    rw [h1, Option.some_bind]
    unfold ticks
    rw [h2, Option.some_bind]
    unfold ticks
    rw [h3, Option.some_bind]
    rfl
  · exact null_pos_tick set_basic t4 _ _ rfl rfl rfl

/-- C8 (evaluation at the failing input). The one-byte candidate `[0x10]`, a basic
report with no hold-time byte at all, is accepted by `push` in the Idle state:
`varint_size` returns 0 for the missing varint, `instruction_size` returns `1 + 0`,
which equals the size, and the byte is appended. -/
theorem push_accepts_missing_varint :
    varint_size [0x10] 1 0 = some 0 ∧ instruction_size [0x10] 1 = some 1 ∧
    push fresh [0x10] 1 = some (loaded [0x10]) ∧
    (loaded [0x10]).end_ = fresh.end_ + 1 ∧ (loaded [0x10]).buf ≠ fresh.buf := by
  decide

/-- C9 (evaluation at the failing input). The candidate `[0x37, 0x00]` is accepted by
`push` (`instruction_size` takes every opcode in `0x10 .. 0x7f` for a basic report),
and `update` dispatches opcode 0x37 to the `default` case: no report, only the opcode
byte consumed. -/
theorem push_accepts_undefined_opcode (set_basic : Nat → Report → Report) (now : Nat)
    (data : Report) :
    instruction_size [0x37, 0x00] 2 = some 2 ∧
    push fresh [0x37, 0x00] 2 = some (loaded [0x37, 0x00]) ∧
    (loaded [0x37, 0x00]).end_ = fresh.end_ + 2 ∧ (loaded [0x37, 0x00]).buf ≠ fresh.buf ∧
    update set_basic now (start (loaded [0x37, 0x00])) data
      = some ({ start (loaded [0x37, 0x00]) with pos := Ptr.off 1 }, data, false) := by
  refine ⟨by decide, by decide, by decide, by decide, by rfl⟩

end hidVM

/-! ## C11, C17, C20: evaluations of call sequences -/

namespace hidVM

/-- C11 (evaluation at the failing input). After `push [0x10, 0x00]`, `start` and two
ticks the program has run off the end of the buffer: the VM is Idle, but the read
position is still at the end of the loaded bytes (`buf + 2`), because the end-of-buffer
branch of `update` only sets `current_state = IDLE`, where `stop` also resets `pos`,
`hold_time` and `loop_depth`.  `stop` in that state changes nothing, and the next
`start` followed by a tick returns no report and is Idle again: the program is not
executed from its first instruction. -/
theorem idle_after_finish_keeps_position :
    run (fun _ d => d) fresh
        [Call.push [0x10, 0x00] 2, Call.start,
         Call.update 100 { d0 := 0, d1 := 0, d2 := 0, d3 := 0, d4 := 0, d5 := 0, d6 := 0 },
         Call.update 101 { d0 := 0, d1 := 0, d2 := 0, d3 := 0, d4 := 0, d5 := 0, d6 := 0 }]
      = some { loaded [0x10, 0x00] with pos := Ptr.off 2, hold_start := 100 } ∧
    ({ loaded [0x10, 0x00] with pos := Ptr.off 2, hold_start := 100 } : VM).current_state
      = State.IDLE ∧
    ({ loaded [0x10, 0x00] with pos := Ptr.off 2, hold_start := 100 } : VM).pos ≠ Ptr.off 0 ∧
    stop { loaded [0x10, 0x00] with pos := Ptr.off 2, hold_start := 100 }
      = { loaded [0x10, 0x00] with pos := Ptr.off 2, hold_start := 100 } ∧
    update (fun _ d => d) 102
        (start { loaded [0x10, 0x00] with pos := Ptr.off 2, hold_start := 100 })
        { d0 := 0, d1 := 0, d2 := 0, d3 := 0, d4 := 0, d5 := 0, d6 := 0 }
      = some ({ loaded [0x10, 0x00] with pos := Ptr.off 2, hold_start := 100 },
              { d0 := 0, d1 := 0, d2 := 0, d3 := 0, d4 := 0, d5 := 0, d6 := 0 }, false) := by
  decide

/-- C17 (evaluation at two failing inputs). First, the program `[0x0E, 0x01] [0x0F]`:
after `start` and two ticks the VM is Executing and `pos` is the null pointer that
LoopEnd took from the never written `loop_table[0]`, below `buf`.  Second, a program
that has finished, followed by `clear` and `start`: the VM is Executing with
`pos = buf + 2` above `end = buf`, because neither the end-of-buffer branch of `update`
nor `clear` resets `pos`. -/
theorem executing_position_outside_program :
    run (fun _ d => d) fresh
        [Call.push [0x0E, 0x01] 2, Call.push [0x0F] 1, Call.start,
         Call.update 100 { d0 := 0, d1 := 0, d2 := 0, d3 := 0, d4 := 0, d5 := 0, d6 := 0 },
         Call.update 101 { d0 := 0, d1 := 0, d2 := 0, d3 := 0, d4 := 0, d5 := 0, d6 := 0 }]
      = some { start (loaded [0x0E, 0x01, 0x0F]) with pos := Ptr.null, loop_depth := 1 } ∧
    ({ start (loaded [0x0E, 0x01, 0x0F]) with pos := Ptr.null, loop_depth := 1 } :
        VM).current_state = State.EXECUTING ∧
    run (fun _ d => d) fresh
        [Call.push [0x10, 0x00] 2, Call.start,
         Call.update 100 { d0 := 0, d1 := 0, d2 := 0, d3 := 0, d4 := 0, d5 := 0, d6 := 0 },
         Call.update 101 { d0 := 0, d1 := 0, d2 := 0, d3 := 0, d4 := 0, d5 := 0, d6 := 0 },
         Call.clear, Call.start]
      = some { start (loaded [0x10, 0x00]) with pos := Ptr.off 2, hold_start := 100, end_ := 0 } ∧
    ({ start (loaded [0x10, 0x00]) with pos := Ptr.off 2, hold_start := 100, end_ := 0 } :
        VM).current_state = State.EXECUTING ∧
    ¬ (2 ≤ ({ start (loaded [0x10, 0x00]) with
                pos := Ptr.off 2, hold_start := 100, end_ := 0 } : VM).end_) := by
  decide

/-- C20 (evaluation at the failing input). The one-byte program `[0x0F]`, a LoopEnd with
no LoopStart, is accepted by `push`; after `start` the first tick dispatches LoopEnd
with `loop_depth = 0` and evaluates `loop_table[loop_depth - 1]`, index `-1`: a fault.
LoopStart is guarded by `loop_depth == MAX_LOOP_DEPTH`; LoopEnd has no such guard. -/
theorem loop_end_at_depth_zero (set_basic : Nat → Report → Report) (now : Nat)
    (data : Report) :
    instruction_size [0x0F] 1 = some 1 ∧
    push fresh [0x0F] 1 = some (loaded [0x0F]) ∧
    (start (loaded [0x0F])).current_state = State.EXECUTING ∧
    (start (loaded [0x0F])).pos = Ptr.off 0 ∧
    (start (loaded [0x0F])).buf[0]? = some 0x0F ∧
    (start (loaded [0x0F])).loop_depth = 0 ∧
    update set_basic now (start (loaded [0x0F])) data = none := by
  refine ⟨by decide, by decide, rfl, rfl, rfl, rfl, rfl⟩

end hidVM

/-! ## C13, C18, C19: evaluations of the encoders and of the validator -/

/-- C18 (evaluation at two failing inputs). The payload `[0x00]` encoded into a zeroed
output array gives the frame `[0x01, 0x01]` of length 2, and encoded into an array
holding `0xAA` gives the frame `[0x01]` of length 1: after the loop
`out[write_index - 1]` is the reserved, never written code slot, and its old content
decides whether the slot is dropped.  The same holds for a payload of 254 non-zero
bytes (lengths 256 and 255), and for `cobsr::encode`, which makes the same test on
`dst[dst_size - 1]`. -/
theorem encode_cobsr_depends_on_output :
    leonardo.encode_cobsr [0x00] [0x00, 0x00] = some (2, [0x01, 0x01]) ∧
    leonardo.encode_cobsr [0x00] [0xAA, 0xAA] = some (1, [0x01, 0xAA]) ∧
    (leonardo.encode_cobsr (List.replicate 254 0x07) (List.replicate 256 0x00)).map Prod.fst
      = some 256 ∧
    (leonardo.encode_cobsr (List.replicate 254 0x07) (List.replicate 256 0xAA)).map Prod.fst
      = some 255 ∧
    cobsr.encode [0x00] [0x00, 0x00] = some (2, [0x01, 0x01]) ∧
    cobsr.encode [0x00] [0xAA, 0xAA] = some (1, [0x01, 0xAA]) := by
  decide

/-- C19 (evaluation at the failing input). On the one-byte candidate `[0xFF]` with
size 1, `instruction_size` computes `len = popcnt(0xFF) = 8` and calls
`varint_size(buf + 8, buf_size - 8)`, whose size argument wraps to 65529; the loop
then reads `buf[8]`, outside the candidate: a fault when the array ends with the
candidate.  When more memory lies behind the pointer the result depends on the bytes
at indices 8 and 9, although the size is 1. -/
theorem instruction_size_reads_past_size :
    popcnt 0xFF = 8 ∧ (1 + SIZE_MOD - 8) % SIZE_MOD = 65529 ∧
    instruction_size [0xFF] 1 = none ∧
    instruction_size [0xFF, 1, 2, 3, 4, 5, 6, 7, 0x00, 0x00] 1 = some 9 ∧
    instruction_size [0xFF, 1, 2, 3, 4, 5, 6, 7, 0x80, 0x00] 1 = some 10 ∧
    hidVM.push hidVM.fresh [0xFF] 1 = none := by
  decide

/-! ## C13: the empty payload -/

/-- C13 (counterexample). `cobsr::encode` of `leo_0f0d_0092/cobs.h` returns length 0
for the empty payload (`if (!src_size) { return 0; }`) and leaves the destination
untouched: no frame of length 1 with the byte 0x01. -/
theorem cobsr_encode_empty_counterexample :
    cobsr.encode [] [0xAA] = some (0, [0xAA]) ∧
    ¬ ∃ dst1, cobsr.encode [] [0xAA] = some (1, dst1) ∧ dst1[0]? = some 0x01 := by
  refine ⟨rfl, ?_⟩
  rintro ⟨dst1, h, _⟩
  have h0 : cobsr.encode [] [0xAA] = some (0, [0xAA]) := rfl
  rw [h0] at h
  cases h

/-- C13 (amended). On the empty payload, `encode_cobsr` of `lib/c/cobsr.h` (given an
output capacity of at least 1) and `encode_cobsr` of
`leonardo_for_nintendo_switch/cobsr.h` write 0x01 to `out[0]` and return 1, touching
nothing else; `cobsr::encode` of `leo_0f0d_0092/cobs.h` returns 0 and writes nothing. -/
theorem empty_payload_frames (out : List Nat) (output_size : Nat) (hcap : 1 ≤ out.length)
    (hsize : 1 ≤ output_size) :
    lib_c.encode_cobsr [] out output_size = some (1, out.set 0 0x01) ∧
    leonardo.encode_cobsr [] out = some (1, out.set 0 0x01) ∧
    (out.set 0 0x01)[0]? = some 0x01 ∧
    (∀ j, 1 ≤ j → (out.set 0 0x01)[j]? = out[j]?) ∧
    cobsr.encode [] out = some (0, out) := by
  have hwr := wr_eq_some out 0 0x01 (by omega)
  have hne : output_size ≠ 0 := by omega
  refine ⟨?_, ?_, List.getElem?_set_self (by omega), ?_, rfl⟩
  · simp only [lib_c.encode_cobsr, List.length_nil, hne, ne_eq, not_false_eq_true, and_self,
      if_true, hwr, Option.some_bind]
  · simp only [leonardo.encode_cobsr, List.length_nil, if_true, hwr, Option.some_bind]
  · intro j hj
    rw [List.getElem?_set_ne (by omega)]

/-- C13 (amended) with a dirty three-byte output array. -/
theorem empty_payload_frames_witness :
    (1 ≤ [0xAA, 0xBB, 0xCC].length ∧ 1 ≤ 3) ∧
    lib_c.encode_cobsr [] [0xAA, 0xBB, 0xCC] 3 = some (1, [0xAA, 0xBB, 0xCC].set 0 0x01) ∧
    leonardo.encode_cobsr [] [0xAA, 0xBB, 0xCC] = some (1, [0xAA, 0xBB, 0xCC].set 0 0x01) ∧
    ([0xAA, 0xBB, 0xCC].set 0 0x01)[0]? = some 0x01 ∧
    (∀ j, 1 ≤ j → ([0xAA, 0xBB, 0xCC].set 0 0x01)[j]? = [0xAA, 0xBB, 0xCC][j]?) ∧
    cobsr.encode [] [0xAA, 0xBB, 0xCC] = some (0, [0xAA, 0xBB, 0xCC]) :=
  ⟨by decide, empty_payload_frames [0xAA, 0xBB, 0xCC] 3 (by decide) (by decide)⟩

/-! ## C12: varint decoding without a terminating byte -/

theorem lib_decode_exit (mem : List Nat) (size : Nat) (dfuel pos shift r : Nat)
    (h : pos = size ∨ 32 ≤ shift) :
    lib_c.decode_varint_loop mem size dfuel pos shift r = some (r, pos) := by
  have hc : ¬ (pos < size ∧ shift < 32) := by omega
  cases dfuel <;> simp only [lib_c.decode_varint_loop, hc, if_false]

/-- The offset-based loop on bytes that all carry the continuation bit, until the
input ends or the shift limit is reached. -/
theorem lib_decode_continuation (mem : List Nat) (size : Nat) (cs : List Nat) :
    ∀ (dfuel pos shift r : Nat), (∀ b ∈ cs, 0x80 ≤ b ∧ b < 256) →
    (∀ j, j < cs.length → mem[pos + j]? = cs[j]?) →
    pos + cs.length ≤ size → shift + 7 * cs.length ≤ 35 →
    (pos + cs.length = size ∨ 32 ≤ shift + 7 * cs.length) →
    r < 2 ^ shift → r < 2 ^ 32 → cs.length ≤ dfuel →
    lib_c.decode_varint_loop mem size dfuel pos shift r
      = some ((r + varint_value cs * 2 ^ shift) % 2 ^ 32, pos + cs.length) := by
  induction cs with
  | nil =>
    intro dfuel pos shift r _ _ _ _ hexit _ hr32 _
    simp only [List.length_nil, Nat.add_zero, Nat.mul_zero] at hexit ⊢
    rw [lib_decode_exit mem size dfuel pos shift r hexit]
    simp only [varint_value, Nat.zero_mul, Nat.add_zero, Nat.mod_eq_of_lt hr32]
  | cons b rest ih =>
    intro dfuel pos shift r hcont hmem hsize hshift hexit hr hr32 hfuel
    simp only [List.length_cons] at hmem hsize hshift hexit hfuel
    obtain ⟨d, rfl⟩ : ∃ d, dfuel = d + 1 := ⟨dfuel - 1, by omega⟩
    have h0 := hmem 0 (by omega)
    simp only [Nat.add_zero, List.getElem?_cons_zero] at h0
    obtain ⟨hb1, hb2⟩ := hcont b (List.mem_cons_self _ _)
    have hb8 : ¬ (b &&& 0x80 = 0) := by rw [byte_and_80 _ hb2]; omega
    have hb7 : b &&& 0x7F = b % 128 := and_7f_eq_mod b
    have hpow : 2 ^ (shift + 7) = 2 ^ shift * 128 := by rw [Nat.pow_add]
    have hacc : r ||| (((b % 128) <<< shift) % 2 ^ 32) = (r + (b % 128) * 2 ^ shift) % 2 ^ 32 :=
      or_shift_mod r _ shift hr (by omega)
    have hr7 : (r + (b % 128) * 2 ^ shift) % 2 ^ 32 < 2 ^ (shift + 7) := by
      have h1 : (b % 128) * 2 ^ shift ≤ 127 * 2 ^ shift := Nat.mul_le_mul_right _ (by omega)
      have h2 : (r + (b % 128) * 2 ^ shift) % 2 ^ 32 ≤ r + (b % 128) * 2 ^ shift :=
        Nat.mod_le _ _
      omega
    have hrec := ih d (pos + 1) (shift + 7) ((r + (b % 128) * 2 ^ shift) % 2 ^ 32)
      (fun x hx => hcont x (List.mem_cons_of_mem _ hx))
      (by intro j hj
          have := hmem (j + 1) (by omega)
          rw [show pos + 1 + j = pos + (j + 1) by omega, this]; simp)
      (by omega) (by omega) (by omega) hr7 (Nat.mod_lt _ (by norm_num)) (by omega)
    rw [lib_decode_step_more mem size d pos shift r b (by omega) (by omega) h0 hb8, hb7, hacc,
      hrec, Nat.mod_add_mod]
    have hval : r + (b % 128) * 2 ^ shift + varint_value rest * 2 ^ (shift + 7)
        = r + varint_value (b :: rest) * 2 ^ shift := by
      rw [hpow]; simp only [varint_value]; ring
    rw [hval, show pos + 1 + rest.length = pos + (rest.length + 1) by omega]
    rfl

/-- C12 (counterexample). Five bytes with the continuation bit followed by a sixth
byte: no byte with bit 0x80 clear is met before five groups have been read, and both
decoders return the position 5, not the end of the input 6. -/
theorem varint_exhaustion_counterexample :
    (∀ j, j < 5 → ∃ b, [0x80, 0x80, 0x80, 0x80, 0x80, 0x01][j]? = some b ∧ b &&& 0x80 ≠ 0) ∧
    lib_c.decode_varint_u32 [0x80, 0x80, 0x80, 0x80, 0x80, 0x01] 6 0 = some (0, 5) ∧
    leo.decode_varint_u32 [0x80, 0x80, 0x80, 0x80, 0x80, 0x01] 0 6 = some (5, 0) ∧
    (5 : Nat) ≠ 6 := by
  decide

/-- C12 (amended). For every input of `size` bytes and start offset `offset ≤ size` such
that every byte from `offset` up to the first of `offset + 5` and `size` carries the
continuation bit 0x80, both decoders return without reading outside the input (an
array of exactly `size` bytes is enough), the result is the value of the groups read,
low-order group first, modulo `2^32`, and the returned offset / pointer is
`min (offset + 5) size`: the end of the input when the input ends first, five bytes
past the start when the shift limit is reached first. -/
theorem varint_decode_exhaustion (data : List Nat) (size offset : Nat)
    (hsize : size ≤ data.length) (hoff : offset ≤ size)
    (hcont : ∀ j, offset ≤ j → j < min (offset + 5) size →
      ∃ b, data[j]? = some b ∧ 0x80 ≤ b ∧ b < 256) :
    lib_c.decode_varint_u32 data size offset
      = some (varint_value ((data.drop offset).take (min 5 (size - offset))) % 2 ^ 32,
              min (offset + 5) size) ∧
    leo.decode_varint_u32 data offset size
      = some (min (offset + 5) size,
              varint_value ((data.drop offset).take (min 5 (size - offset))) % 2 ^ 32) := by
  have hlen : ((data.drop offset).take (min 5 (size - offset))).length = min 5 (size - offset) := by
    rw [List.length_take, List.length_drop]; omega
  have hget : ∀ j, j < min 5 (size - offset) →
      ((data.drop offset).take (min 5 (size - offset)))[j]? = data[offset + j]? := by
    intro j hj
    rw [List.getElem?_take_of_lt hj, List.getElem?_drop]
  have hall : ∀ b ∈ (data.drop offset).take (min 5 (size - offset)), 0x80 ≤ b ∧ b < 256 := by
    intro b hb
    obtain ⟨j, hj, hbj⟩ := List.getElem_of_mem hb
    rw [hlen] at hj
    have h1 := hget j hj
    obtain ⟨b', hb', hr⟩ := hcont (offset + j) (by omega) (by omega)
    rw [List.getElem?_eq_getElem (by rw [hlen]; exact hj), hbj, hb'] at h1
    cases h1
    exact hr
  have h := lib_decode_continuation data size ((data.drop offset).take (min 5 (size - offset)))
    (size - offset) offset 0 0 hall
    (by intro j hj; rw [hlen] at hj; exact (hget j hj).symm)
    (by rw [hlen]; omega) (by rw [hlen]; omega) (by rw [hlen]; omega) (by norm_num)
    (by norm_num) (by rw [hlen]; omega)
  rw [hlen] at h
  simp only [Nat.pow_zero, Nat.mul_one, Nat.zero_add] at h
  have hmin : offset + min 5 (size - offset) = min (offset + 5) size := by omega
  rw [hmin] at h
  refine ⟨h, ?_⟩
  unfold leo.decode_varint_u32
  rw [leo_decode_loop_eq, h]
  rfl

/-- C12 (amended) on the three-byte input `[0xFF, 0xFF, 0xFF]`, an array of exactly
`size` bytes: the input ends first. -/
theorem varint_decode_exhaustion_witness :
    (3 ≤ [0xFF, 0xFF, 0xFF].length ∧ 0 ≤ 3) ∧
    lib_c.decode_varint_u32 [0xFF, 0xFF, 0xFF] 3 0
      = some (varint_value (([0xFF, 0xFF, 0xFF].drop 0).take (min 5 (3 - 0))) % 2 ^ 32,
              min (0 + 5) 3) ∧
    leo.decode_varint_u32 [0xFF, 0xFF, 0xFF] 0 3
      = some (min (0 + 5) 3,
              varint_value (([0xFF, 0xFF, 0xFF].drop 0).take (min 5 (3 - 0))) % 2 ^ 32) :=
  ⟨by decide, varint_decode_exhaustion [0xFF, 0xFF, 0xFF] 3 0 (by decide) (by decide)
    (by decide)⟩

/-! ## What one tick can change -/

namespace hidVM

theorem arm_hold_frame (now : Nat) (vm : VM) (p : Nat) (data : Report)
    (res : VM × Report × Bool) (h : arm_hold now vm p data = some res) :
    res.1.current_state = vm.current_state ∧ res.1.buf = vm.buf ∧ res.1.end_ = vm.end_ ∧
    res.1.loop_table = vm.loop_table ∧ res.1.loop_depth = vm.loop_depth ∧
    res.2.2 = true := by
  unfold arm_hold at h
  rw [Option.bind_eq_some] at h
  obtain ⟨r, _, hr⟩ := h
  cases hr
  exact ⟨rfl, rfl, rfl, rfl, rfl, rfl⟩

theorem update_idle (set_basic : Nat → Report → Report) (now : Nat) (vm : VM) (data : Report)
    (hstate : vm.current_state = State.IDLE) :
    update set_basic now vm data = some (vm, data, false) := by
  unfold update
  rw [if_pos hstate]

theorem update_holding (set_basic : Nat → Report → Report) (now : Nat) (vm : VM)
    (data : Report) (hstate : vm.current_state = State.EXECUTING)
    (hhold : holding now vm = true) :
    update set_basic now vm data = some (vm, data, false) := by
  unfold update
  rw [if_neg (by rw [hstate]; decide), if_pos hhold]

theorem update_at_end (set_basic : Nat → Report → Report) (now : Nat) (vm : VM)
    (data : Report) (hstate : vm.current_state = State.EXECUTING)
    (hhold : holding now vm = false) (p : Nat) (hpos : vm.pos = Ptr.off p)
    (hp : vm.end_ ≤ p) :
    update set_basic now vm data
      = some ({ vm with hold_time := 0, current_state := State.IDLE }, data, false) := by
  have hge : p ≥ vm.end_ := hp
  unfold update
  rw [if_neg (by rw [hstate]; decide), hhold]
  simp only [Bool.false_eq_true, if_false, pos_ge_end, hpos, hge, decide_True, if_true]

theorem update_read_fault (set_basic : Nat → Report → Report) (now : Nat) (vm : VM)
    (data : Report) (hstate : vm.current_state = State.EXECUTING)
    (hhold : holding now vm = false) (p : Nat) (hpos : vm.pos = Ptr.off p)
    (hp : p < vm.end_) (hop : vm.buf[p]? = none) :
    update set_basic now vm data = none := by
  have hlt : ¬ (p ≥ vm.end_) := by omega
  unfold update
  rw [if_neg (by rw [hstate]; decide), hhold]
  simp only [Bool.false_eq_true, if_false, pos_ge_end, hpos, hlt, decide_False, rd, hop,
    Option.none_bind]

/-- The opcode dispatch of a tick that is neither Idle, nor holding, nor at the end of
the program, written without the intermediate states. -/
theorem update_dispatch (set_basic : Nat → Report → Report) (now : Nat) (vm : VM)
    (data : Report) (p opcode : Nat)
    (hstate : vm.current_state = State.EXECUTING) (hhold : holding now vm = false)
    (hpos : vm.pos = Ptr.off p) (hp : p < vm.end_) (hop : vm.buf[p]? = some opcode) :
    update set_basic now vm data
      = if opcode &&& 0x80 = 0 then
          if opcode = 0x0e then
            if vm.loop_depth = MAX_LOOP_DEPTH then
              some ({ vm with hold_time := 0, pos := Ptr.off (p + 1) }, data, false)
            else
              (vm.loop_table[vm.loop_depth]?).bind fun _ =>
                (leo.decode_varint_u32 vm.buf (p + 1) vm.end_).bind fun r =>
                  some ({ vm with hold_time := 0, pos := Ptr.off r.1,
                                  loop_depth := (vm.loop_depth + 1) % 256 }, data, false)
          else if opcode = 0x0f then
            if vm.loop_depth = 0 then none
            else
              (vm.loop_table[vm.loop_depth - 1]?).bind fun crnt_loop =>
                if (crnt_loop.count + 2 ^ 32 - 1) % 2 ^ 32 = 0 then
                  some ({ vm with hold_time := 0, pos := Ptr.off (p + 1),
                                  loop_depth := vm.loop_depth - 1 }, data, false)
                else
                  some ({ vm with hold_time := 0, pos := crnt_loop.start_pos }, data, false)
          else if opcode = 0x10 then
            arm_hold now { vm with hold_time := 0, pos := Ptr.off (p + 1) } (p + 1)
              (set_neutral data)
          else if 0x11 ≤ opcode ∧ opcode ≤ 0x36 then
            arm_hold now { vm with hold_time := 0, pos := Ptr.off (p + 1) } (p + 1)
              (set_basic opcode data)
          else some ({ vm with hold_time := 0, pos := Ptr.off (p + 1) }, data, false)
        else
          (complex_report vm.buf opcode (p + 1)).bind fun c =>
            arm_hold now { vm with hold_time := 0, pos := Ptr.off (p + 1) } c.2 c.1 := by
  have hlt : ¬ (p ≥ vm.end_) := by omega
  unfold update
  rw [if_neg (by rw [hstate]; decide), hhold]
  simp only [Bool.false_eq_true, if_false, pos_ge_end, hpos, hlt, decide_False]
  simp only [rd, hop, Option.some_bind]

/-- One tick never changes the buffer, the write position or the loop table; the
loop depth stays, or goes up by one from a value other than `MAX_LOOP_DEPTH`, or goes
down by one from a value other than 0; and the state stays or becomes Idle. -/
theorem update_frame (set_basic : Nat → Report → Report) (now : Nat) (vm : VM)
    (data : Report) (res : VM × Report × Bool)
    (h : update set_basic now vm data = some res) :
    res.1.buf = vm.buf ∧ res.1.end_ = vm.end_ ∧ res.1.loop_table = vm.loop_table ∧
    (res.1.loop_depth = vm.loop_depth ∨
      (vm.loop_depth ≠ MAX_LOOP_DEPTH ∧ res.1.loop_depth = (vm.loop_depth + 1) % 256) ∨
      (vm.loop_depth ≠ 0 ∧ res.1.loop_depth = vm.loop_depth - 1)) ∧
    (res.1.current_state = vm.current_state ∨ res.1.current_state = State.IDLE) := by
  by_cases hst : vm.current_state = State.IDLE
  · rw [update_idle set_basic now vm data hst] at h
    cases h; exact ⟨rfl, rfl, rfl, Or.inl rfl, Or.inl rfl⟩
  have hstate : vm.current_state = State.EXECUTING := by
    cases hc : vm.current_state
    · exact absurd hc hst
    · rfl
  cases hhold : holding now vm
  swap
  · rw [update_holding set_basic now vm data hstate hhold] at h
    cases h; exact ⟨rfl, rfl, rfl, Or.inl rfl, Or.inl rfl⟩
  cases hpos : vm.pos with
  | null =>
    rw [null_pos_tick set_basic now vm data hstate hhold hpos] at h
    cases h
  | off p =>
    by_cases hp : vm.end_ ≤ p
    · rw [update_at_end set_basic now vm data hstate hhold p hpos hp] at h
      cases h; exact ⟨rfl, rfl, rfl, Or.inl rfl, Or.inr rfl⟩
    cases hop : vm.buf[p]? with
    | none =>
      rw [update_read_fault set_basic now vm data hstate hhold p hpos (by omega) hop] at h
      cases h
    | some opcode =>
      rw [update_dispatch set_basic now vm data p opcode hstate hhold hpos (by omega) hop] at h
      split at h
      · split at h
        · split at h
          · cases h; exact ⟨rfl, rfl, rfl, Or.inl rfl, Or.inl rfl⟩
          · rename_i hd
            rw [Option.bind_eq_some] at h
            obtain ⟨entry, _, h⟩ := h
            rw [Option.bind_eq_some] at h
            obtain ⟨r, _, h⟩ := h
            cases h
            exact ⟨rfl, rfl, rfl, Or.inr (Or.inl ⟨hd, rfl⟩), Or.inl rfl⟩
        · split at h
          · split at h
            · cases h
            · rename_i hd
              rw [Option.bind_eq_some] at h
              obtain ⟨entry, _, h⟩ := h
              split at h
              · cases h; exact ⟨rfl, rfl, rfl, Or.inr (Or.inr ⟨hd, rfl⟩), Or.inl rfl⟩
              · cases h; exact ⟨rfl, rfl, rfl, Or.inl rfl, Or.inl rfl⟩
          · split at h
            · obtain ⟨h1, h2, h3, h4, h5, _⟩ := arm_hold_frame _ _ _ _ _ h
              exact ⟨h2, h3, h4, Or.inl h5, Or.inl h1⟩
            · split at h
              · obtain ⟨h1, h2, h3, h4, h5, _⟩ := arm_hold_frame _ _ _ _ _ h
                exact ⟨h2, h3, h4, Or.inl h5, Or.inl h1⟩
              · cases h; exact ⟨rfl, rfl, rfl, Or.inl rfl, Or.inl rfl⟩
      · rw [Option.bind_eq_some] at h
        obtain ⟨c, _, h⟩ := h
        obtain ⟨h1, h2, h3, h4, h5, _⟩ := arm_hold_frame _ _ _ _ _ h
        exact ⟨h2, h3, h4, Or.inl h5, Or.inl h1⟩

end hidVM

/-! ## Copying between arrays -/

theorem wr_length (m : List Nat) (i v : Nat) (m1 : List Nat) (h : wr m i v = some m1) :
    m1.length = m.length := by
  unfold wr at h
  split at h
  · cases h; simp
  · cases h

theorem memcpy_length (src : List Nat) : ∀ (n : Nat) (dst : List Nat) (d s : Nat)
    (dst1 : List Nat), memcpy dst d src s n = some dst1 → dst1.length = dst.length := by
  intro n
  induction n with
  | zero => intro dst d s dst1 h; simp only [memcpy] at h; cases h; rfl
  | succ n ih =>
    intro dst d s dst1 h
    simp only [memcpy] at h
    rw [Option.bind_eq_some] at h
    obtain ⟨b, _, h⟩ := h
    rw [Option.bind_eq_some] at h
    obtain ⟨dst2, hw, h⟩ := h
    rw [ih dst2 (d + 1) (s + 1) dst1 h, wr_length dst d b dst2 hw]

/-- A copy that stays inside both arrays succeeds, writes the copied bytes and changes
nothing outside the destination range. -/
theorem memcpy_spec (src : List Nat) : ∀ (n : Nat) (dst : List Nat) (d s : Nat),
    s + n ≤ src.length → d + n ≤ dst.length →
    ∃ dst1, memcpy dst d src s n = some dst1 ∧ dst1.length = dst.length ∧
      (∀ j, j < d ∨ d + n ≤ j → dst1[j]? = dst[j]?) ∧
      (∀ j, j < n → dst1[d + j]? = src[s + j]?) := by
  intro n
  induction n with
  | zero =>
    intro dst d s _ _
    exact ⟨dst, rfl, rfl, fun _ _ => rfl, fun j hj => by omega⟩
  | succ n ih =>
    intro dst d s hs hd
    have hsl : s < src.length := by omega
    have hrd : rd src s = some src[s] := by
      unfold rd; exact List.getElem?_eq_getElem hsl
    have hwr := wr_eq_some dst d src[s] (by omega)
    obtain ⟨dst1, h1, h2, h3, h4⟩ := ih (dst.set d src[s]) (d + 1) (s + 1) (by omega)
      (by simp; omega)
    refine ⟨dst1, ?_, by simpa using h2, ?_, ?_⟩
    · simp only [memcpy, hrd, Option.some_bind, hwr, h1]
    · intro j hj
      rw [h3 j (by omega), List.getElem?_set_ne (by omega)]
    · intro j hj
      cases j with
      | zero =>
        rw [Nat.add_zero, Nat.add_zero, h3 d (by omega), List.getElem?_set_self (by omega),
          List.getElem?_eq_getElem hsl]
      | succ j =>
        have := h4 j (by omega)
        rw [show d + (j + 1) = d + 1 + j by omega, this, show s + (j + 1) = s + 1 + j by omega]

/-! ## C15: the COBS/R decoder never expands -/

namespace leonardo

theorem decode_loop_bounded (inp : List Nat) (hnz : ∀ b ∈ inp, b ≠ 0) (fuel : Nat) :
    ∀ (in_pos out_pos : Nat) (out : List Nat), in_pos < inp.length → out_pos ≤ in_pos →
    inp.length - in_pos ≤ fuel → inp.length ≤ out.length →
    ∃ len out1, decode_loop inp inp.length fuel in_pos out_pos out = some (len, out1) ∧
      len ≤ inp.length ∧ out1.length = out.length ∧
      (∀ j, j < out_pos ∨ inp.length ≤ j → out1[j]? = out[j]?) := by
  induction fuel with
  | zero => intro in_pos out_pos out hin _ hfuel _; omega
  | succ fuel ih =>
    intro in_pos out_pos out hin hout hfuel hcap
    have hrd : rd inp in_pos = some inp[in_pos] := by
      unfold rd; exact List.getElem?_eq_getElem hin
    have hcode : inp[in_pos] ≠ 0 := hnz _ (List.getElem_mem hin)
    generalize inp[in_pos] = code at hrd hcode
    have hstep : decode_loop inp inp.length (fuel + 1) in_pos out_pos out =
        (if code > inp.length - in_pos then
          (memcpy out out_pos inp (in_pos + 1) (inp.length - in_pos - 1)).bind fun out1 =>
            (wr out1 (out_pos + (inp.length - in_pos - 1)) code).bind fun out2 =>
              some (out_pos + (inp.length - in_pos - 1) + 1, out2)
        else if code = 0 then none
        else
          (memcpy out out_pos inp (in_pos + 1) (code - 1)).bind fun out1 =>
            if in_pos + code = inp.length then some (out_pos + (code - 1), out1)
            else if code ≠ 0xFF then
              (wr out1 (out_pos + (code - 1)) 0x00).bind fun out2 =>
                decode_loop inp inp.length fuel (in_pos + code) (out_pos + (code - 1) + 1) out2
            else decode_loop inp inp.length fuel (in_pos + code) (out_pos + (code - 1)) out1) := by
      simp only [decode_loop, hrd, Option.some_bind]
    rw [hstep]
    by_cases hgt : code > inp.length - in_pos
    · -- the reduced final block
      obtain ⟨out1, h1, h2, h3, _⟩ := memcpy_spec inp (inp.length - in_pos - 1) out out_pos
        (in_pos + 1) (by omega) (by omega)
      have hwr := wr_eq_some out1 (out_pos + (inp.length - in_pos - 1)) code (by omega)
      refine ⟨out_pos + (inp.length - in_pos - 1) + 1,
        out1.set (out_pos + (inp.length - in_pos - 1)) code, ?_, by omega, ?_, ?_⟩
      · rw [if_pos hgt, h1, Option.some_bind, hwr, Option.some_bind]
      · simpa using h2
      · intro j hj
        rw [List.getElem?_set_ne (by omega), h3 j (by omega)]
    · obtain ⟨out1, h1, h2, h3, _⟩ := memcpy_spec inp (code - 1) out out_pos
        (in_pos + 1) (by omega) (by omega)
      by_cases hend : in_pos + code = inp.length
      · refine ⟨out_pos + (code - 1), out1, ?_, by omega, h2, ?_⟩
        · rw [if_neg hgt, if_neg hcode, h1, Option.some_bind, if_pos hend]
        · intro j hj
          exact h3 j (by omega)
      · by_cases hff : code = 0xFF
        · obtain ⟨len, out2, g1, g2, g3, g4⟩ := ih (in_pos + code) (out_pos + (code - 1)) out1
            (by omega) (by omega) (by omega) (by omega)
          refine ⟨len, out2, ?_, g2, by omega, ?_⟩
          · rw [if_neg hgt, if_neg hcode, h1, Option.some_bind, if_neg hend,
              if_neg (not_not_intro hff)]
            exact g1
          · intro j hj
            rw [g4 j (by omega), h3 j (by omega)]
        · have hwr := wr_eq_some out1 (out_pos + (code - 1)) 0x00 (by omega)
          obtain ⟨len, out2, g1, g2, g3, g4⟩ := ih (in_pos + code) (out_pos + (code - 1) + 1)
            (out1.set (out_pos + (code - 1)) 0x00) (by omega) (by omega) (by omega)
            (by simp; omega)
          refine ⟨len, out2, ?_, g2, by simpa [h2] using g3, ?_⟩
          · rw [if_neg hgt, if_neg hcode, h1, Option.some_bind, if_neg hend, if_pos hff, hwr,
              Option.some_bind]
            exact g1
          · intro j hj
            rw [g4 j (by omega), List.getElem?_set_ne (by omega), h3 j (by omega)]

end leonardo

/-- C15. For every non-empty frame whose bytes are all non-zero and every output array
of at least `in_size` bytes, `decode_cobsr` returns (the loop ends within `in_size`
rounds) without touching an index outside either array, so with an input and an
output array of exactly `in_size` bytes it reads and writes only indices below
`in_size`; the returned length is at most `in_size`, and output elements at or above
`in_size` are unchanged. -/
theorem decode_cobsr_never_expands (inp out : List Nat) (hne : inp ≠ [])
    (hnz : ∀ b ∈ inp, b ≠ 0) (hcap : inp.length ≤ out.length) :
    ∃ len out1, leonardo.decode_cobsr inp inp.length out = some (len, out1) ∧
      len ≤ inp.length ∧ out1.length = out.length ∧
      ∀ j, inp.length ≤ j → out1[j]? = out[j]? := by
  have hpos : 0 < inp.length := List.length_pos.mpr hne
  obtain ⟨len, out1, h1, h2, h3, h4⟩ := leonardo.decode_loop_bounded inp hnz inp.length 0 0 out
    hpos (le_refl _) (by omega) hcap
  refine ⟨len, out1, ?_, h2, h3, fun j hj => h4 j (Or.inr hj)⟩
  unfold leonardo.decode_cobsr
  rw [if_neg (by omega), h1]

/-- C15 on the frame `[0x05, 0x11, 0xFF, 0x01]`, which no encoder produces, with an
output array of exactly four bytes. -/
theorem decode_cobsr_never_expands_witness :
    ([0x05, 0x11, 0xFF, 0x01] ≠ [] ∧ (∀ b ∈ [0x05, 0x11, 0xFF, 0x01], b ≠ 0) ∧
      [0x05, 0x11, 0xFF, 0x01].length ≤ [0xAA, 0xAA, 0xAA, 0xAA].length) ∧
    ∃ len out1, leonardo.decode_cobsr [0x05, 0x11, 0xFF, 0x01] [0x05, 0x11, 0xFF, 0x01].length
        [0xAA, 0xAA, 0xAA, 0xAA] = some (len, out1) ∧
      len ≤ [0x05, 0x11, 0xFF, 0x01].length ∧ out1.length = [0xAA, 0xAA, 0xAA, 0xAA].length ∧
      ∀ j, [0x05, 0x11, 0xFF, 0x01].length ≤ j → out1[j]? = [0xAA, 0xAA, 0xAA, 0xAA][j]? :=
  ⟨by decide, decode_cobsr_never_expands [0x05, 0x11, 0xFF, 0x01] [0xAA, 0xAA, 0xAA, 0xAA]
    (by decide) (by decide) (by decide)⟩

/-! ## Resource bounds along call sequences without a fault -/

namespace hidVM

theorem push_bounds (vm vm1 : VM) (data : List Nat) (size : Nat)
    (hb : vm.end_ ≤ BUFFER_SIZE ∧ vm.loop_depth ≤ MAX_LOOP_DEPTH)
    (h : push vm data size = some vm1) :
    vm1.end_ ≤ BUFFER_SIZE ∧ vm1.loop_depth ≤ MAX_LOOP_DEPTH := by
  unfold push at h
  split at h
  · cases h; exact hb
  · split at h
    · cases h; exact hb
    · rename_i hfit
      rw [Option.bind_eq_some] at h
      obtain ⟨isz, _, h⟩ := h
      split at h
      · cases h; exact hb
      · rw [Option.bind_eq_some] at h
        obtain ⟨buf1, _, h⟩ := h
        cases h
        exact ⟨Nat.le_of_not_lt hfit, hb.2⟩

theorem call_bounds (set_basic : Nat → Report → Report) (vm vm1 : VM) (c : Call)
    (hb : vm.end_ ≤ BUFFER_SIZE ∧ vm.loop_depth ≤ MAX_LOOP_DEPTH)
    (h : call set_basic vm c = some vm1) :
    vm1.end_ ≤ BUFFER_SIZE ∧ vm1.loop_depth ≤ MAX_LOOP_DEPTH := by
  cases c with
  | push data size => exact push_bounds vm vm1 data size hb h
  | clear =>
    simp only [call, clear, Option.some.injEq] at h
    subst h
    split
    · exact hb
    · exact ⟨Nat.zero_le _, hb.2⟩
  | start =>
    simp only [call, start, Option.some.injEq] at h
    subst h
    split
    · exact hb
    · exact hb
  | stop =>
    simp only [call, stop, Option.some.injEq] at h
    subst h
    split
    · exact hb
    · exact ⟨hb.1, Nat.zero_le _⟩
  | update now data =>
    simp only [call] at h
    rw [Option.bind_eq_some] at h
    obtain ⟨res, hres, h⟩ := h
    cases h
    obtain ⟨_, hend, _, hdepth, _⟩ := update_frame set_basic now vm data res hres
    refine ⟨by rw [hend]; exact hb.1, ?_⟩
    have hb2 := hb.2
    unfold MAX_LOOP_DEPTH at hb2 hdepth ⊢
    omega

/-- Along a sequence of calls in which no call faults (no access outside an array, no
null dereference) the bounds `end - buf ≤ BUFFER_SIZE` and
`loop_depth ≤ MAX_LOOP_DEPTH` are kept.  A tick that dispatches LoopEnd with
`loop_depth = 0` is not such a call. -/
theorem run_bounds (set_basic : Nat → Report → Report) (calls : List Call) :
    ∀ (vm vm1 : VM), vm.end_ ≤ BUFFER_SIZE ∧ vm.loop_depth ≤ MAX_LOOP_DEPTH →
    run set_basic vm calls = some vm1 →
    vm1.end_ ≤ BUFFER_SIZE ∧ vm1.loop_depth ≤ MAX_LOOP_DEPTH := by
  induction calls with
  | nil => intro vm vm1 hb h; simp only [run, Option.some.injEq] at h; subst h; exact hb
  | cons c rest ih =>
    intro vm vm1 hb h
    simp only [run] at h
    rw [Option.bind_eq_some] at h
    obtain ⟨vm2, hc, h⟩ := h
    exact ih vm2 vm1 (call_bounds set_basic vm vm2 c hb hc) h

end hidVM

/-! ## C21: the two COBS/R decoders -/

/-- C21 (evaluation at the failing input). The frame `[0x05, 0x11]`, which
`encode_cobsr` produces for the payload `[0x11, 0x05]`, has a COBS/R-reduced final
block.  Decoded into an output array whose second byte holds `b` beforehand, the
pointer-based `decode_cobsr` of `leonardo_for_nintendo_switch/cobsr.h` stores the code
(`*out_pos++ = code;`) and returns the bytes `[0x11, 0x05]`, while the offset-based
`decode_cobsr` of `lib/c/cobsr.h` adds the code to the old content
(`output[write_index++] += code;`) and returns `[0x11, (b + 5) mod 256]`; with
`b = 0xAA` that is `[0x11, 0xAF]`.  The lengths agree, and the bytes agree only when
the output byte was 0 beforehand. -/
theorem decode_cobsr_adds_to_output :
    (leonardo.encode_cobsr [0x11, 0x05] [0x00, 0x00, 0x00]).map
      (fun r => (r.1, r.2.take r.1)) = some (2, [0x05, 0x11]) ∧
    (∀ a b : Nat,
      leonardo.decode_cobsr [0x05, 0x11] 2 [a, b] = some (2, [0x11, 0x05]) ∧
      lib_c.decode_cobsr [0x05, 0x11] 2 [a, b] 2 = some (2, [0x11, (b + 5) % 256])) ∧
    leonardo.decode_cobsr [0x05, 0x11] 2 [0xAA, 0xAA] = some (2, [0x11, 0x05]) ∧
    lib_c.decode_cobsr [0x05, 0x11] 2 [0xAA, 0xAA] 2 = some (2, [0x11, 0xAF]) ∧
    lib_c.decode_cobsr [0x05, 0x11] 2 [0x00, 0x00] 2 = some (2, [0x11, 0x05]) := by
  refine ⟨by decide, ?_, by decide, by decide, by decide⟩
  intro a b
  exact ⟨rfl, rfl⟩

/-! ## C22: instruction length in the validator and in the interpreter -/

namespace hidVM

/-- C22 (evaluation at the failing inputs). The candidate
`[0x10, 0x80, 0x80, 0x80, 0x80, 0x80, 0x00]` of size 7, a basic report whose varint
has six bytes, is accepted by `push`: `varint_size` counts bytes up to the first one
without the continuation bit, with no limit.  One tick from its first byte leaves the
read position at `buf + 6`, not `buf + 7`: `decode_varint_u32` stops after five
groups (`shift < 32`).  The same happens for LoopStart (`0x0E`) and for the complex
report `[0x81, 0x55, ...]` of size 8 (position 7).  The position is then inside the
instruction, and the last varint byte is executed as an opcode: with `0x0F` in that
place the second tick dispatches LoopEnd at loop depth 0, a fault.  Conversely the
candidate `[0x10]` of size 1 (accepted without a varint) followed by the instruction
`[0x11, 0x00]` advances the position by 2, taking the next opcode as its hold time. -/
theorem long_varint_position :
    instruction_size [0x10, 0x80, 0x80, 0x80, 0x80, 0x80, 0x00] 7 = some 7 ∧
    run (fun _ d => d) fresh
        [Call.push [0x10, 0x80, 0x80, 0x80, 0x80, 0x80, 0x00] 7, Call.start,
         Call.update 100 { d0 := 0, d1 := 0, d2 := 0, d3 := 0, d4 := 0, d5 := 0, d6 := 0 }]
      = some { start (loaded [0x10, 0x80, 0x80, 0x80, 0x80, 0x80, 0x00]) with
               pos := Ptr.off 6, hold_start := 100 } ∧
    run (fun _ d => d) fresh
        [Call.push [0x0E, 0x80, 0x80, 0x80, 0x80, 0x80, 0x01] 7, Call.start,
         Call.update 100 { d0 := 0, d1 := 0, d2 := 0, d3 := 0, d4 := 0, d5 := 0, d6 := 0 }]
      = some { start (loaded [0x0E, 0x80, 0x80, 0x80, 0x80, 0x80, 0x01]) with
               pos := Ptr.off 6, loop_depth := 1 } ∧
    run (fun _ d => d) fresh
        [Call.push [0x81, 0x55, 0x80, 0x80, 0x80, 0x80, 0x80, 0x00] 8, Call.start,
         Call.update 100 { d0 := 0, d1 := 0, d2 := 0, d3 := 0, d4 := 0, d5 := 0, d6 := 0 }]
      = some { start (loaded [0x81, 0x55, 0x80, 0x80, 0x80, 0x80, 0x80, 0x00]) with
               pos := Ptr.off 7, hold_start := 100 } ∧
    run (fun _ d => d) fresh
        [Call.push [0x10, 0x80, 0x80, 0x80, 0x80, 0x80, 0x0F] 7, Call.start,
         Call.update 100 { d0 := 0, d1 := 0, d2 := 0, d3 := 0, d4 := 0, d5 := 0, d6 := 0 },
         Call.update 101 { d0 := 0, d1 := 0, d2 := 0, d3 := 0, d4 := 0, d5 := 0, d6 := 0 }]
      = none ∧
    run (fun _ d => d) fresh
        [Call.push [0x10] 1, Call.push [0x11, 0x00] 2, Call.start,
         Call.update 100 { d0 := 0, d1 := 0, d2 := 0, d3 := 0, d4 := 0, d5 := 0, d6 := 0 }]
      = some { start (loaded [0x10, 0x11, 0x00]) with
               pos := Ptr.off 2, hold_time := 0x11, hold_start := 100 } := by
  decide

end hidVM

/-! ## C10, C16: a declared size below the instruction, and LoopEnd on an empty stack -/

namespace hidVM

/-- C10 (evaluation at the failing input). The data `[0x10, 0x00]` is one complete
neutral-report instruction of encoded length 2.  Pushed with the declared size 1, which
differs from that length, it is accepted: `instruction_size` returns
`1 + varint_size(buf + 1, 0) = 1 + 0`, equal to the declared size, so `push` copies one
byte and advances `end` by 1.  The same happens for the complex report
`[0x81, 0x55, 0x00]` of length 3 pushed with size 2. -/
theorem push_accepts_smaller_size :
    IsInstruction [0x10, 0x00] ∧
    instruction_size [0x10, 0x00] 2 = some 2 ∧
    instruction_size [0x10, 0x00] 1 = some 1 ∧
    push fresh [0x10, 0x00] 1 = some (loaded [0x10]) ∧
    fresh.end_ = 0 ∧ (loaded [0x10]).end_ = 1 ∧
    fresh.buf[0]? = some 0x00 ∧ (loaded [0x10]).buf[0]? = some 0x10 ∧
    instruction_size [0x81, 0x55, 0x00] 3 = some 3 ∧
    push fresh [0x81, 0x55, 0x00] 2 = some (loaded [0x81, 0x55]) := by
  refine ⟨Or.inr (Or.inr (Or.inl ⟨0x10, [0x00], by decide, by decide, by decide, rfl⟩)),
    by decide, by decide, by decide, by decide, by decide, by decide, by decide, by decide,
    by decide⟩

/-- One non-holding tick on LoopEnd with a non-empty loop stack is `loop_end_local` at
the table entry copied, after the opcode has been consumed. -/
theorem loop_end_tick_local (set_basic : Nat → Report → Report) (now : Nat) (vm : VM)
    (data : Report) (p : Nat) (entry : Loop)
    (hstate : vm.current_state = State.EXECUTING) (hhold : holding now vm = false)
    (hpos : vm.pos = Ptr.off p) (hp : p < vm.end_) (hop : vm.buf[p]? = some 0x0f)
    (hdepth : vm.loop_depth ≠ 0) (hbyte : vm.loop_depth < 256)
    (hentry : vm.loop_table[vm.loop_depth - 1]? = some entry) :
    update set_basic now vm data
      = some (loop_end_local { vm with hold_time := 0, pos := Ptr.off (p + 1) } entry,
              data, false) := by
  rw [loop_end_tick set_basic now vm data p entry hstate hhold hpos hp hop hdepth hentry]
  have hdec : (vm.loop_depth + 256 - 1) % 256 = vm.loop_depth - 1 := by omega
  unfold loop_end_local
  split
  · simp only [hdec]
  · rfl

/-- With `count = 1` in the object copied, `loop_end_local` at loop depth 0 leaves
`loop_depth = 255`: the `uint8_t` decrement wraps. -/
theorem loop_end_local_wraps (vm1 : VM) (q : Ptr) (h : vm1.loop_depth = 0) :
    (loop_end_local vm1 { count := 1, start_pos := q }).loop_depth = 255 := by
  have hc : ((1 : Nat) + 2 ^ 32 - 1) % 2 ^ 32 = 0 := by decide
  unfold loop_end_local
  rw [if_pos hc]
  show (vm1.loop_depth + 256 - 1) % 256 = 255
  rw [h]

/-- C16 (evaluation at the failing input). The one-byte program `[0x0F]` is accepted
by `push`.  After `start` the first tick dispatches LoopEnd with `loop_depth = 0` and
copies `loop_table[-1]`, an object outside the table: the call has no defined result
(`none` in the model), and no guard keeps `loop_depth` in range.  The statements that
follow the copy, `loop_end_local`, decrement the `uint8_t loop_depth` whenever the word
copied as `count` is 1, and `0 - 1` wraps to 255, above `MAX_LOOP_DEPTH`. -/
theorem loop_depth_after_unmatched_loop_end (q : Ptr) :
    push fresh [0x0F] 1 = some (loaded [0x0F]) ∧
    (start (loaded [0x0F])).loop_depth = 0 ∧
    (start (loaded [0x0F])).loop_table.length = MAX_LOOP_DEPTH ∧
    run (fun _ d => d) fresh
        [Call.push [0x0F] 1, Call.start,
         Call.update 100 { d0 := 0, d1 := 0, d2 := 0, d3 := 0, d4 := 0, d5 := 0, d6 := 0 }]
      = none ∧
    (loop_end_local { start (loaded [0x0F]) with pos := Ptr.off 1 }
        { count := 1, start_pos := q }).loop_depth = 255 ∧
    ¬ (255 ≤ MAX_LOOP_DEPTH) := by
  refine ⟨by decide, by decide, by decide, by decide,
    loop_end_local_wraps _ q (by decide), by decide⟩

end hidVM
